import Mathlib

/-!
Shallow embedding of the search engine of the SearchPathVisualizer repository
(`searcher.py`): the graph store built by `Searcher.load_graph`, the path
reconstructor `reconstruct_path`, and the four traversal algorithms
`Searcher.bfs`, `Searcher.dfs`, `Searcher.best_first_search` and
`Searcher.a_star_search`.

Modelling conventions:
- Python strings are `String`, integer edge weights are `Int`.
- Python dicts are association lists; insertion of a fresh key appends at the
  end, overwriting an existing key rewrites it in place, and lookup returns the
  first matching entry.  This mirrors the insertion-order semantics of Python
  dicts.
- `while` loops become fuel-indexed recursion; running out of fuel yields
  `none`, as does an uncaught `KeyError`.  A Python `return` of a value `v`
  becomes `some v`.
- The search loops carry ghost instrumentation (the sequence of labels pushed
  onto the frontier, the sequence of parent-map assignments, and a counter of
  duplicate-pop guard hits).  The ghost fields never influence control flow.
-/

namespace SPV

/-- `SearchNode` of `searcher.py`: a neighbor entry `(label, value)` where
`value` is the edge weight. -/
structure SearchNode where
  label : String
  value : Int
deriving DecidableEq, Repr

/-- `self.graph`: dict from node label to its ordered adjacency list. -/
abbrev Graph := List (String × List SearchNode)

/-- `self.parent` / local `parent` dicts: node label to parent label
(`none` is Python `None`, the sentinel stored for the start node). -/
abbrev ParentMap := List (String × Option String)

/-- `self.heuristics`: nested dict node label → (neighbor label → weight). -/
abbrev HTable := List (String × List (String × Int))

/-- Association-list model of a Python dict: lookup returns the first entry
with the given key. -/
def alookup (m : List (String × α)) (k : String) : Option α :=
  (m.find? (fun e => e.1 == k)).map (fun e => e.2)

/-- Python dict assignment `m[k] = v`: overwrite an existing key in place,
or append a fresh key at the end (insertion order). -/
def aset (m : List (String × α)) (k : String) (v : α) : List (String × α) :=
  if (alookup m k).isSome then m.map (fun e => if e.1 == k then (k, v) else e)
  else m ++ [(k, v)]

/-- `if node not in self.graph: self.graph[node] = []`. -/
def graphEnsureKey (g : Graph) (k : String) : Graph :=
  if (alookup g k).isSome then g else g ++ [(k, [])]

/-- `self.graph[k].append(n)`. -/
def graphAppend (g : Graph) (k : String) (n : SearchNode) : Graph :=
  g.map (fun e => if e.1 == k then (e.1, e.2 ++ [n]) else e)

/-- `self.heuristics[u][v]`, `none` on a `KeyError`. -/
def hLookup (h : HTable) (u v : String) : Option Int :=
  match alookup h u with
  | none => none
  | some inner => alookup inner v

/-- `self.heuristics[u][v] = w`, updating the inner dict in place.  The
`none` branch (outer key absent, a `KeyError` in Python) is unreachable at
the only call site: `load_graph` ensures the key just before. -/
def hSet (h : HTable) (u v : String) (w : Int) : HTable :=
  match alookup h u with
  | none => h
  | some _ => h.map (fun e => if e.1 == u then (e.1, aset e.2 v w) else e)

/-- `if node not in self.heuristics: self.heuristics[node] = {}`. -/
def hEnsureKey (h : HTable) (k : String) : HTable :=
  if (alookup h k).isSome then h else h ++ [(k, [])]

/-- One parsed line of the graph description file:
`(node, neighbor, weight, node_coords, neighbor_coords)`. -/
structure EdgeLine where
  node : String
  nbr : String
  weight : Int
  nodeCoords : Int × Int
  nbrCoords : Int × Int
deriving DecidableEq, Repr

/-- The state built by `Searcher.load_graph`. -/
structure LoadedGraph where
  graph : Graph
  heuristics : HTable
  node_coordinates : List (String × (Int × Int))
deriving Repr

/-- `s.upper()` (ASCII case folding, as the labels used here are ASCII).
Implemented over the character list so the kernel can evaluate it. -/
def upper (s : String) : String := ⟨s.data.map Char.toUpper⟩

/-- Body of the `for line in file` loop of `Searcher.load_graph`. -/
def loadStep (st : LoadedGraph) (ln : EdgeLine) : LoadedGraph :=
  let node := upper ln.node
  let neighbor := upper ln.nbr
  let weight := ln.weight
  let g1 := graphEnsureKey st.graph node
  let g2 := graphEnsureKey g1 neighbor
  let g3 := graphAppend g2 node ⟨neighbor, weight⟩
  let g4 := graphAppend g3 neighbor ⟨node, weight⟩
  let coords1 := aset st.node_coordinates node ln.nodeCoords
  let coords2 := aset coords1 neighbor ln.nbrCoords
  let h1 := hEnsureKey st.heuristics node
  let h2 := hEnsureKey h1 neighbor
  let h3 := hSet h2 node neighbor weight
  let h4 := hSet h3 neighbor node weight
  { graph := g4, heuristics := h4, node_coordinates := coords2 }

/-- `Searcher.load_graph`, over the already-parsed lines of the file. -/
def load_graph (lines : List EdgeLine) : LoadedGraph :=
  lines.foldl loadStep ⟨[], [], []⟩

/-! ## Path reconstruction (`reconstruct_path`) -/

/-- The inner cost accumulation of `reconstruct_path`:
`for neighbor in graph[previous]: if neighbor.label == current: total += value`.
Sums every matching adjacency entry. -/
def edgeCostSum (graph : Graph) (prev cur : String) : Int :=
  (((alookup graph prev).getD []).filter (fun nb => nb.label == cur)).map
    (fun nb => nb.value) |>.sum

/-- The `while current != start` loop of `reconstruct_path`.  `cur = none`
models the Python variable `current` holding `None`; the source then loops
forever (`None != start` and `parent.get(None)` is `None` again), which the
model reports as `none` once the fuel runs out.  A lookup `graph[previous]`
of a missing key is a `KeyError`, also `none`. -/
def reconLoop (parent : ParentMap) (graph : Graph) (start : String) :
    Nat → Option String → List String → Int → Option (List String × Int)
  | 0, _, _, _ => none
  | fuel + 1, cur, path, cost =>
    match cur with
    | none => reconLoop parent graph start fuel none path cost
    | some c =>
      if c = start then some ((path ++ [start]).reverse, cost)
      else
        let path' := path ++ [c]
        match (alookup parent c).join with
        | none => reconLoop parent graph start fuel none path' cost
        | some p =>
          if p = "" then reconLoop parent graph start fuel (some p) path' cost
          else
            match alookup graph p with
            | none => none
            | some nbrs =>
              let cost' := cost +
                ((nbrs.filter (fun nb => nb.label == c)).map (fun nb => nb.value)).sum
              reconLoop parent graph start fuel (some p) path' cost'

/-- `reconstruct_path(parent, start, goal, graph)`.  Any terminating run of
the Python loop follows a parent chain of pairwise-distinct nodes whose
non-final nodes are keys of `parent`, so `parent.length + 2` units of fuel
are enough for every terminating run. -/
def reconstruct_path (parent : ParentMap) (start goal : String) (graph : Graph) :
    Option (List String × Int) :=
  reconLoop parent graph start (parent.length + 2) (some goal) [] 0

/-! ## Search loop skeleton -/

/-- Outcome of one iteration of a search `while` loop: continue with a new
state, return a value (with the state as it stands at the `return`), or raise
an uncaught Python exception. -/
inductive StepOut (σ ρ : Type) where
  | cont (s : σ)
  | ret (r : ρ) (s : σ)
  | err (s : σ)
deriving Repr

/-- Fueled driver shared by the four `while` loops: iterate the loop body
until it returns or raises.  The first component is `none` on a raise or when
the fuel (a model artifact) runs out; the second is the state at the end. -/
def runLoop (step : σ → StepOut σ ρ) : Nat → σ → Option ρ × σ
  | 0, s => (none, s)
  | fuel + 1, s =>
    match step s with
    | .cont s' => runLoop step fuel s'
    | .ret r s' => (some r, s')
    | .err s' => (none, s')

/-- The state after `n` completed iterations of a loop body (`none` when the
run returns or raises strictly before that). -/
def iterSteps (step : σ → StepOut σ ρ) : Nat → σ → Option σ
  | 0, s => some s
  | n + 1, s =>
    match step s with
    | .cont s' => iterSteps step n s'
    | _ => none

/-! ## BFS (`Searcher.bfs`) -/

/-- Lexicographic comparison of character lists by code point, the order
Python uses on strings. -/
def charListLe : List Char → List Char → Bool
  | [], _ => true
  | _ :: _, [] => false
  | a :: as, b :: bs => if a = b then charListLe as bs else decide (a < b)

/-- `a <= b` on labels (Python string comparison, by code points). -/
def labelLe (a b : String) : Bool := charListLe a.data b.data

/-- Sorting `children.sort(key=lambda x: x.label)`: Python `list.sort` is
stable, as is `List.insertionSort` with a `≤`-style comparison. -/
def sortNodes (l : List SearchNode) : List SearchNode :=
  l.insertionSort (fun a b => labelLe a.label b.label)

/-- State of a BFS/DFS run.  `pushTrace`, `assignTrace` and `guardHits` are
ghost instrumentation: every frontier push, every parent-map assignment
`parent[child] = current` (as a `(child, current)` pair), and the number of
times the `if current_node.label in visited: continue` guard fired.  They
never influence control flow. -/
structure BfsState where
  queue : List SearchNode
  visited : List String
  parent : ParentMap
  pushTrace : List String
  assignTrace : List (String × String)
  guardHits : Nat
deriving Repr, DecidableEq

/-- `for child in children: if child.label not in parent: parent[child.label]
= current_node.label` (BFS), also recording the assignments made. -/
def bfsAssign (cur : String) :
    ParentMap → List (String × String) → List SearchNode →
    ParentMap × List (String × String)
  | parent, tr, [] => (parent, tr)
  | parent, tr, c :: rest =>
    if (alookup parent c.label).isSome then bfsAssign cur parent tr rest
    else bfsAssign cur (aset parent c.label (some cur)) (tr ++ [(c.label, cur)]) rest

/-- One iteration of the `while queue` loop of `Searcher.bfs`: pop the head,
skip it if already visited, mark visited, test the goal, otherwise push the
unvisited not-yet-discovered children in alphabetical order. -/
def bfsStep (graph : Graph) (start goal : String) (s : BfsState) :
    StepOut BfsState (List String × Int) :=
  match s.queue with
  | [] => .ret ([], 0) s
  | current :: rest =>
    if current.label ∈ s.visited then
      .cont { s with queue := rest, guardHits := s.guardHits + 1 }
    else
      let visited' := s.visited ++ [current.label]
      if current.label = goal then
        match reconstruct_path s.parent start goal graph with
        | none => .err { s with queue := rest, visited := visited' }
        | some r => .ret r { s with queue := rest, visited := visited' }
      else
        match alookup graph current.label with
        | none => .err { s with queue := rest, visited := visited' }
        | some nbrs =>
          let children := nbrs.filter (fun nb =>
            !(visited'.contains nb.label) && (alookup s.parent nb.label).isNone)
          let pt := bfsAssign current.label s.parent s.assignTrace children
          let children' := sortNodes children
          .cont { queue := rest ++ children', visited := visited',
                  parent := pt.1,
                  pushTrace := s.pushTrace ++ children'.map (fun c => c.label),
                  assignTrace := pt.2, guardHits := s.guardHits }

/-- Fueled `while queue` loop of `Searcher.bfs`. -/
def bfsLoop (graph : Graph) (start goal : String) :
    Nat → BfsState → Option (List String × Int) × BfsState :=
  runLoop (bfsStep graph start goal)

/-- Initial BFS/DFS state: `visited = set()`, `parent = {start: None}`,
`queue = [SearchNode(start, 0)]` (the seed counts as the first push). -/
def searchInit (start : String) : BfsState :=
  { queue := [⟨start, 0⟩], visited := [], parent := [(start, none)],
    pushTrace := [start], assignTrace := [], guardHits := 0 }

/-- `Searcher.bfs(start, goal)` with its instrumentation. -/
def bfsAux (graph : Graph) (start goal : String) (fuel : Nat) :
    Option (List String × Int) × BfsState :=
  bfsLoop graph start goal fuel (searchInit start)

/-- `Searcher.bfs(start, goal)`: the returned `(path, cost)` pair. -/
def bfs (graph : Graph) (start goal : String) (fuel : Nat) :
    Option (List String × Int) :=
  (bfsAux graph start goal fuel).1

/-- The states the BFS loop passes through: `n` iterations from `s`
(`none` once the run has ended or raised before completing `n` iterations). -/
def bfsIter (graph : Graph) (start goal : String) :
    Nat → BfsState → Option BfsState :=
  iterSteps (bfsStep graph start goal)

/-! ## DFS (`Searcher.dfs`) -/

/-- `for child in reversed(children): stack.insert(0, child);
parent[child.label] = current_node.label` — the assignment is unconditional. -/
def dfsAssign (cur : String) :
    ParentMap → List (String × String) → List SearchNode →
    ParentMap × List (String × String)
  | parent, tr, [] => (parent, tr)
  | parent, tr, c :: rest =>
    dfsAssign cur (aset parent c.label (some cur)) (tr ++ [(c.label, cur)]) rest

/-- One iteration of the `while stack` loop of `Searcher.dfs`.  Inserting the
reversed sorted children one at a time at index 0 leaves them on the front of
the stack in ascending label order. -/
def dfsStep (graph : Graph) (start goal : String) (s : BfsState) :
    StepOut BfsState (List String × Int) :=
  match s.queue with
  | [] => .ret ([], 0) s
  | current :: rest =>
    if current.label ∈ s.visited then
      .cont { s with queue := rest, guardHits := s.guardHits + 1 }
    else
      let visited' := s.visited ++ [current.label]
      if current.label = goal then
        match reconstruct_path s.parent start goal graph with
        | none => .err { s with queue := rest, visited := visited' }
        | some r => .ret r { s with queue := rest, visited := visited' }
      else
        match alookup graph current.label with
        | none => .err { s with queue := rest, visited := visited' }
        | some nbrs =>
          let children := nbrs.filter (fun nb => !(visited'.contains nb.label))
          let children' := sortNodes children
          let rc := children'.reverse
          let pt := dfsAssign current.label s.parent s.assignTrace rc
          .cont { queue := children' ++ rest, visited := visited',
                  parent := pt.1,
                  pushTrace := s.pushTrace ++ rc.map (fun c => c.label),
                  assignTrace := pt.2, guardHits := s.guardHits }

/-- Fueled `while stack` loop of `Searcher.dfs`. -/
def dfsLoop (graph : Graph) (start goal : String) :
    Nat → BfsState → Option (List String × Int) × BfsState :=
  runLoop (dfsStep graph start goal)

/-- `Searcher.dfs(start, goal)` with its instrumentation. -/
def dfsAux (graph : Graph) (start goal : String) (fuel : Nat) :
    Option (List String × Int) × BfsState :=
  dfsLoop graph start goal fuel (searchInit start)

/-- `Searcher.dfs(start, goal)`: the returned `(path, cost)` pair. -/
def dfs (graph : Graph) (start goal : String) (fuel : Nat) :
    Option (List String × Int) :=
  (dfsAux graph start goal fuel).1

/-! ## Best-First search (`Searcher.best_first_search`) -/

/-- `priority_queue.sort(key=lambda x: x[1])` for `(label, Int)` entries;
`List.insertionSort` by `≤` on the key is stable, like Python's sort. -/
def sortedQueueI (pq : List (String × Int)) : List (String × Int) :=
  pq.insertionSort (fun a b => a.2 ≤ b.2)

/-- State of a Best-First run.  `assignTrace` is ghost instrumentation
recording each `parent[child.label] = current_node` assignment. -/
structure BestFsState where
  queue : List (String × Int)
  visited : List String
  parent : ParentMap
  assignTrace : List (String × String)
deriving Repr, DecidableEq

/-- Lines 362–372 of `searcher.py`: append the child when no frontier entry
carries its label, otherwise rewrite in place every entry of that label whose
stored heuristic exceeds the new value. -/
def bestFirstInsert (pq : List (String × Int)) (lbl : String) (hv : Int) :
    List (String × Int) :=
  if pq.any (fun e => e.1 == lbl) then
    pq.map (fun e => if e.1 == lbl && decide (hv < e.2) then (lbl, hv) else e)
  else pq ++ [(lbl, hv)]

/-- The `for child in children` loop of `best_first_search`: guarded parent
assignment, heuristic lookup (`none` on `KeyError`), frontier insertion. -/
def bestFsChildren (htbl : HTable) (cur : String) :
    ParentMap → List (String × Int) → List (String × String) → List SearchNode →
    Option (ParentMap × List (String × Int) × List (String × String))
  | parent, pq, tr, [] => some (parent, pq, tr)
  | parent, pq, tr, c :: rest =>
    let pt :=
      if (alookup parent c.label).isSome then (parent, tr)
      else (aset parent c.label (some cur), tr ++ [(c.label, cur)])
    match hLookup htbl cur c.label with
    | none => none
    | some hv => bestFsChildren htbl cur pt.1 (bestFirstInsert pq c.label hv) pt.2 rest

/-- One iteration of the `while priority_queue` loop of `best_first_search`:
sort by heuristic, pop the head, goal test before marking visited, then
process the unvisited children. -/
def bestFirstStep (graph : Graph) (htbl : HTable) (start goal : String)
    (s : BestFsState) : StepOut BestFsState (List String × Int) :=
  match sortedQueueI s.queue with
  | [] => .ret ([], 0) s
  | (cur, _) :: rest =>
    if cur = goal then
      match reconstruct_path s.parent start goal graph with
      | none => .err { s with queue := rest }
      | some r => .ret r { s with queue := rest }
    else
      let visited' := s.visited ++ [cur]
      match alookup graph cur with
      | none => .err { s with queue := rest, visited := visited' }
      | some nbrs =>
        let children := nbrs.filter (fun nb => !(visited'.contains nb.label))
        match bestFsChildren htbl cur s.parent rest s.assignTrace children with
        | none => .err { s with queue := rest, visited := visited' }
        | some out =>
          .cont { queue := out.2.1, visited := visited', parent := out.1,
                  assignTrace := out.2.2 }

/-- Fueled `while` loop of `best_first_search`. -/
def bestFirstLoop (graph : Graph) (htbl : HTable) (start goal : String) :
    Nat → BestFsState → Option (List String × Int) × BestFsState :=
  runLoop (bestFirstStep graph htbl start goal)

/-- Initial Best-First state: `parent = {start: None}`,
`priority_queue = [(start, 0)]`. -/
def bestFsInit (start : String) : BestFsState :=
  { queue := [(start, 0)], visited := [], parent := [(start, none)],
    assignTrace := [] }

/-- `Searcher.best_first_search(start, goal)` with its instrumentation. -/
def bestFirstAux (graph : Graph) (htbl : HTable) (start goal : String)
    (fuel : Nat) : Option (List String × Int) × BestFsState :=
  bestFirstLoop graph htbl start goal fuel (bestFsInit start)

/-- `Searcher.best_first_search(start, goal)`: the returned pair. -/
def best_first_search (graph : Graph) (htbl : HTable) (start goal : String)
    (fuel : Nat) : Option (List String × Int) :=
  (bestFirstAux graph htbl start goal fuel).1

/-- The states the Best-First loop passes through: `n` iterations from `s`
(`none` once the run has ended or raised before completing `n` iterations). -/
def bestFirstIter (graph : Graph) (htbl : HTable) (start goal : String) :
    Nat → BestFsState → Option BestFsState :=
  iterSteps (bestFirstStep graph htbl start goal)

/-! ## A* search (`Searcher.a_star_search`)

The source computes `heuristic_value` as the Euclidean distance between the
child's and the goal's coordinates, or `float('inf')` when either lacks
coordinates (lines 419–423).  That value is a real-valued square root of
integer arithmetic, used by the algorithm only through order comparisons in
the frontier sort; the embedding takes it as a parameter
`hfun : String → WithTop ℚ` (`⊤` standing for `float('inf')`) so that
concrete runs remain evaluable. -/

/-- `priority_queue.sort(key=lambda x: x[1])` for f-cost entries. -/
def sortedQueueQ (pq : List (String × WithTop ℚ)) : List (String × WithTop ℚ) :=
  pq.insertionSort (fun a b => a.2 ≤ b.2)

/-- State of an A* run (`priority_queue`, `visited`, `self.g_costs`,
`self.parent`). -/
structure AStarState where
  queue : List (String × WithTop ℚ)
  visited : List String
  g_costs : List (String × Int)
  parent : ParentMap
deriving DecidableEq

/-- Line 428 of `searcher.py`:
`neighbor.label not in self.g_costs or tentative_g_cost < self.g_costs[...]`. -/
def aStarAccepts (g : List (String × Int)) (lbl : String) (tentative : Int) :
    Bool :=
  match alookup g lbl with
  | none => true
  | some old => decide (tentative < old)

/-- Lines 414–435 of `searcher.py` for one neighbor: compute the tentative
g-cost and f-cost and, when accepted, update the g-cost map and parent and
replace the frontier entries of that label by the single new one. -/
def aStarRelax (st : List (String × Int) × ParentMap × List (String × WithTop ℚ))
    (cur : String) (gcur : Int) (nb : SearchNode) (hval : WithTop ℚ) :
    List (String × Int) × ParentMap × List (String × WithTop ℚ) :=
  let tentative := gcur + nb.value
  let f : WithTop ℚ := ((tentative : ℚ) : WithTop ℚ) + hval
  if aStarAccepts st.1 nb.label tentative then
    (aset st.1 nb.label tentative, aset st.2.1 nb.label (some cur),
      (st.2.2.filter (fun e => e.1 != nb.label)) ++ [(nb.label, f)])
  else st

/-- The `for neighbor in children` loop of `a_star_search`; the lookup
`self.g_costs[current_node]` happens inside the loop (`none` on `KeyError`). -/
def aStarChildren (hfun : String → WithTop ℚ) (cur : String) :
    List (String × Int) × ParentMap × List (String × WithTop ℚ) →
    List SearchNode →
    Option (List (String × Int) × ParentMap × List (String × WithTop ℚ))
  | st, [] => some st
  | st, nb :: rest =>
    match alookup st.1 cur with
    | none => none
    | some gcur => aStarChildren hfun cur (aStarRelax st cur gcur nb (hfun nb.label)) rest

/-- One iteration of the `while priority_queue` loop of `a_star_search`.
When the frontier is empty the `while` loop exits and the function body ends
without a `return` statement, so Python returns `None`: that is `.ret none`,
while a goal hit is `.ret (some r)`. -/
def aStarStep (graph : Graph) (hfun : String → WithTop ℚ) (start goal : String)
    (s : AStarState) : StepOut AStarState (Option (List String × Int)) :=
  match sortedQueueQ s.queue with
  | [] => .ret none s
  | (cur, _) :: rest =>
    if cur = goal then
      match reconstruct_path s.parent start goal graph with
      | none => .err { s with queue := rest }
      | some r => .ret (some r) { s with queue := rest }
    else
      let visited' := s.visited ++ [cur]
      match alookup graph cur with
      | none => .err { s with queue := rest, visited := visited' }
      | some nbrs =>
        let children := nbrs.filter (fun nb => !(visited'.contains nb.label))
        match aStarChildren hfun cur (s.g_costs, s.parent, rest) children with
        | none => .err { s with queue := rest, visited := visited' }
        | some out =>
          .cont { queue := out.2.2, visited := visited', g_costs := out.1,
                  parent := out.2.1 }

/-- Fueled `while` loop of `a_star_search`.  The first component is `none`
on a crash (or exhausted fuel), `some none` when the source returns `None`,
and `some (some r)` when it returns a `(path, cost)` pair. -/
def aStarLoop (graph : Graph) (hfun : String → WithTop ℚ) (start goal : String) :
    Nat → AStarState → Option (Option (List String × Int)) × AStarState :=
  runLoop (aStarStep graph hfun start goal)

/-- Initial A* state: `priority_queue = [(start, 0)]`,
`self.g_costs = {start: 0}`, `self.parent = {start: None}`. -/
def aStarInit (start : String) : AStarState :=
  { queue := [(start, 0)], visited := [], g_costs := [(start, 0)],
    parent := [(start, none)] }

/-- `Searcher.a_star_search(start, goal)`. -/
def a_star_search (graph : Graph) (hfun : String → WithTop ℚ)
    (start goal : String) (fuel : Nat) : Option (Option (List String × Int)) :=
  (aStarLoop graph hfun start goal fuel (aStarInit start)).1

/-- The states the A* loop passes through: `n` iterations from `s`. -/
def aStarIter (graph : Graph) (hfun : String → WithTop ℚ) (start goal : String) :
    Nat → AStarState → Option AStarState :=
  iterSteps (aStarStep graph hfun start goal)

/-! ## Paths and example graphs -/

/-- `v` occurs on `u`'s adjacency list. -/
def adjB (g : Graph) (u v : String) : Bool :=
  ((alookup g u).getD []).any (fun nb => nb.label == v)

/-- A nonempty sequence of nodes each adjacent to the next. -/
def isWalkB (g : Graph) : List String → Bool
  | [] => false
  | [_] => true
  | x :: y :: rest => adjB g x y && isWalkB g (y :: rest)

/-- A start-to-goal path of the graph: a walk whose first node is `s` and
whose last node is `t`. -/
def isPathFromTo (g : Graph) (s t : String) (p : List String) : Prop :=
  isWalkB g p = true ∧ p.head? = some s ∧ p.getLast? = some t

/-- Every edge weight of the graph equals `w`. -/
def allWeightsEqual (g : Graph) (w : Int) : Prop :=
  ∀ e ∈ g, ∀ nb ∈ e.2, nb.value = w

/-- Every adjacency list mentions each neighbor label at most once (true of
graphs whose description file lists each undirected edge once). -/
def NodupAdj (g : Graph) : Prop :=
  ∀ e ∈ g, (e.2.map SearchNode.label).Nodup

/-- The scenario of §8 of the spec: `A-B(1), B-C(1), A-C(5)`, colinear
coordinates. -/
def triangleLines : List EdgeLine :=
  [⟨"A", "B", 1, (0, 0), (1, 0)⟩, ⟨"B", "C", 1, (1, 0), (2, 0)⟩,
   ⟨"A", "C", 5, (0, 0), (2, 0)⟩]

/-- The graph loaded from `triangleLines`. -/
def triangleGraph : Graph := (load_graph triangleLines).graph

/-- A single undirected edge `A-B(1)`; `D` is absent, as in the
disconnected-goal scenario of §8 of the spec. -/
def abLines : List EdgeLine := [⟨"A", "B", 1, (0, 0), (1, 0)⟩]

/-- The load result for `abLines`. -/
def abLoaded : LoadedGraph := load_graph abLines

/-- The graph loaded from `abLines`. -/
def abGraph : Graph := abLoaded.graph

/-- An equilateral triangle `A-B(1), A-C(1), B-C(1)`. -/
def eqTriangleLines : List EdgeLine :=
  [⟨"A", "B", 1, (0, 0), (1, 0)⟩, ⟨"A", "C", 1, (0, 0), (0, 1)⟩,
   ⟨"B", "C", 1, (1, 0), (0, 1)⟩]

/-- The graph loaded from `eqTriangleLines`. -/
def eqTriangleGraph : Graph := (load_graph eqTriangleLines).graph

/-- The edge `A-B(1)` listed twice, producing duplicated adjacency entries. -/
def dupEdgeLines : List EdgeLine :=
  [⟨"A", "B", 1, (0, 0), (1, 0)⟩, ⟨"A", "B", 1, (0, 0), (1, 0)⟩]

/-- The graph loaded from `dupEdgeLines`:
`A ↦ [B(1), B(1)]`, `B ↦ [A(1), A(1)]`. -/
def dupEdgeGraph : Graph := (load_graph dupEdgeLines).graph

/-! ## Adjacency membership and parent chains -/

/-- The pair `(v, w)` occurs on `u`'s adjacency list. -/
def memAdj (g : Graph) (u v : String) (w : Int) : Prop :=
  ∃ ns, alookup g u = some ns ∧ SearchNode.mk v w ∈ ns

/-- The adjacency structure is symmetric with identical weights. -/
def SymAdj (g : Graph) : Prop := ∀ u v w, memAdj g u v w → memAdj g v u w

/-- The parent link `parent.get(c)` as the Python value: a label, or `None`
(key absent, or the stored `None` sentinel). -/
def parentOf (parent : ParentMap) (c : String) : Option String :=
  (alookup parent c).join

/-- The walk `reconstruct_path` takes terminates: from `c`, following parent
links `n` times reaches `start` without passing through `start` earlier, and
every parent value on the way is either the empty string (falsy in Python,
so the cost lookup is skipped) or a key of the graph (so `graph[previous]`
does not raise). -/
def chainOkB (parent : ParentMap) (graph : Graph) (start : String) :
    String → Nat → Bool
  | c, 0 => c == start
  | c, n + 1 =>
    c != start &&
      match parentOf parent c with
      | none => false
      | some p =>
        (p == "" || (alookup graph p).isSome) && chainOkB parent graph start p n

/-- As `chainOkB`, but every parent value on the chain is nonempty and a
graph key, so the cost of each step's edge is accumulated. -/
def chainCostOkB (parent : ParentMap) (graph : Graph) (start : String) :
    String → Nat → Bool
  | c, 0 => c == start
  | c, n + 1 =>
    c != start &&
      match parentOf parent c with
      | none => false
      | some p =>
        p != "" && (alookup graph p).isSome && chainCostOkB parent graph start p n

/-- The nodes `c, parent(c), …` along `n` parent links. -/
def chainList (parent : ParentMap) : String → Nat → List String
  | c, 0 => [c]
  | c, n + 1 => c :: chainList parent ((parentOf parent c).getD "") n

/-- The total cost `reconstruct_path` accumulates along a chain (the edge
into a falsy parent value is skipped, as in the source). -/
def chainCost (parent : ParentMap) (graph : Graph) : String → Nat → Int
  | _, 0 => 0
  | c, n + 1 =>
    let p := (parentOf parent c).getD ""
    (if p = "" then 0 else edgeCostSum graph p c) + chainCost parent graph p n

/-- The sum, over each consecutive pair of nodes of a path, of the weight of
the connecting edge looked up in the graph. -/
def pathCost (g : Graph) : List String → Int
  | [] => 0
  | [_] => 0
  | x :: y :: rest => edgeCostSum g x y + pathCost g (y :: rest)

/-- Bookkeeping invariant of the guarded parent assignments (BFS and
Best-First): every label of the assignment trace was assigned exactly once
and is a key of the parent map. -/
def AssignInv (parent : ParentMap) (tr : List (String × String)) : Prop :=
  (tr.map Prod.fst).Nodup ∧ ∀ l ∈ tr.map Prod.fst, (alookup parent l).isSome

/-- Run invariant of BFS on a graph with duplicate-free adjacency lists:
queue labels are pairwise distinct, unvisited and parent-map keys, the push
trace is duplicate-free and within the parent-map keys, and the
duplicate-pop guard has never fired. -/
def PushInv (s : BfsState) : Prop :=
  (s.queue.map SearchNode.label).Nodup ∧
    (∀ l ∈ s.queue.map SearchNode.label, l ∉ s.visited) ∧
    (∀ l ∈ s.queue.map SearchNode.label, (alookup s.parent l).isSome) ∧
    s.pushTrace.Nodup ∧
    (∀ l ∈ s.pushTrace, (alookup s.parent l).isSome) ∧
    s.guardHits = 0

/-- The parent chain from `c` reaches `start` in exactly `n` links, and each
link is a graph edge: the chain node occurs on its parent's adjacency list.
This strengthens `chainOkB` to chains whose reversal is a walk. -/
def chainAdjB (parent : ParentMap) (g : Graph) (start : String) :
    String → Nat → Bool
  | c, 0 => c == start
  | c, n + 1 =>
    c != start &&
      match parentOf parent c with
      | none => false
      | some p => adjB g p c && chainAdjB parent g start p n

/-- Run invariant of the BFS minimum-hop argument, parametrized by a ghost
depth assignment `D`: queue labels and visited nodes are parent-map keys;
every key is visited or queued; `start` is a key of depth 0; every key's
parent chain is a `D`-length edge chain to `start`; every neighbor of a
visited node is a key of depth at most one more; visited depths are below
queued depths; queued depths are non-decreasing and pairwise within one of
each other; and `goal` has never been marked visited. -/
structure MinInvD (g : Graph) (start goal : String) (D : String → Nat)
    (s : BfsState) : Prop where
  qKeys : ∀ l ∈ s.queue.map SearchNode.label, (alookup s.parent l).isSome
  vKeys : ∀ v ∈ s.visited, (alookup s.parent v).isSome
  part : ∀ x, (alookup s.parent x).isSome →
    x ∈ s.visited ∨ x ∈ s.queue.map SearchNode.label
  startKey : (alookup s.parent start).isSome
  startD : D start = 0
  chain : ∀ x, (alookup s.parent x).isSome →
    chainAdjB s.parent g start x (D x) = true
  closure : ∀ v ∈ s.visited, ∀ w, adjB g v w = true →
    (alookup s.parent w).isSome ∧ D w ≤ D v + 1
  vLeQ : ∀ v ∈ s.visited, ∀ q ∈ s.queue.map SearchNode.label, D v ≤ D q
  mono : List.Pairwise (fun a b => D a ≤ D b) (s.queue.map SearchNode.label)
  window : ∀ a ∈ s.queue.map SearchNode.label,
    ∀ b ∈ s.queue.map SearchNode.label, D a ≤ D b + 1
  goalNotV : goal ∉ s.visited

/-- The BFS minimum-hop invariant, with the depth assignment existential. -/
def MinInv (g : Graph) (start goal : String) (s : BfsState) : Prop :=
  ∃ D, MinInvD g start goal D s

/-! ## Generic loop lemmas -/

theorem runLoop_succ_fst (step : σ → StepOut σ ρ) :
    ∀ fuel s r, (runLoop step fuel s).1 = some r →
      (runLoop step (fuel + 1) s).1 = some r := by
  intro fuel
  induction fuel with
  | zero => intro s r h; simp [runLoop] at h
  | succ f ih =>
    intro s r h
    rw [runLoop] at h ⊢
    cases hs : step s with
    | cont s' => simp only [hs] at h ⊢; exact ih s' r h
    | ret r' s' => simp only [hs] at h ⊢; exact h
    | err s' => simp only [hs] at h ⊢; exact h

theorem runLoop_add_fst (step : σ → StepOut σ ρ) (fuel : Nat) (s : σ) (r : ρ)
    (h : (runLoop step fuel s).1 = some r) :
    ∀ k, (runLoop step (fuel + k) s).1 = some r := by
  intro k
  induction k with
  | zero => exact h
  | succ n ih => exact runLoop_succ_fst step (fuel + n) s r ih

/-- Invariant preservation along `runLoop`: the state it ends in satisfies
every property the loop body's continue branch preserves and its return and
raise branches establish. -/
theorem runLoop_inv (step : σ → StepOut σ ρ) (P : σ → Prop)
    (hc : ∀ s s', P s → step s = .cont s' → P s')
    (hr : ∀ s r s', P s → step s = .ret r s' → P s')
    (he : ∀ s s', P s → step s = .err s' → P s') :
    ∀ fuel s, P s → P (runLoop step fuel s).2 := by
  intro fuel
  induction fuel with
  | zero => intro s h; exact h
  | succ f ih =>
    intro s h
    rw [runLoop]
    cases hs : step s with
    | cont s' => exact ih s' (hc s s' h hs)
    | ret r' s' => exact hr s r' s' h hs
    | err s' => exact he s s' h hs

/-- A returned result satisfies whatever the return branch guarantees in
every state satisfying an invariant the continue branch preserves. -/
theorem runLoop_ret_elim (step : σ → StepOut σ ρ) (P : σ → Prop) (Q : ρ → Prop)
    (hc : ∀ s s', P s → step s = .cont s' → P s')
    (hr : ∀ s r s', P s → step s = .ret r s' → Q r) :
    ∀ fuel s r, P s → (runLoop step fuel s).1 = some r → Q r := by
  intro fuel
  induction fuel with
  | zero => intro s r _ h; simp [runLoop] at h
  | succ f ih =>
    intro s r hP h
    rw [runLoop] at h
    cases hs : step s with
    | cont s' => simp only [hs] at h; exact ih s' r (hc s s' hP hs) h
    | ret r' s' =>
      simp only [hs] at h
      obtain rfl : r' = r := Option.some.inj h
      exact hr s _ s' hP hs
    | err s' => simp [hs] at h

/-- Every state reached by iterating a loop body satisfies every property the
continue branch preserves. -/
theorem iterSteps_inv (step : σ → StepOut σ ρ) (P : σ → Prop)
    (hc : ∀ s s', P s → step s = .cont s' → P s') :
    ∀ n s s', P s → iterSteps step n s = some s' → P s' := by
  intro n
  induction n with
  | zero =>
    intro s s' hP h
    simp only [iterSteps] at h
    cases h
    exact hP
  | succ k ih =>
    intro s s' hP h
    rw [iterSteps] at h
    cases hs : step s with
    | cont s₁ => simp only [hs] at h; exact ih s₁ s' (hc s s₁ hP hs) h
    | ret r' s₁ => simp [hs] at h
    | err s₁ => simp [hs] at h

/-! ## C1, C2: concrete scenarios -/

/-- C1: on the graph `A-B(1), B-C(1), A-C(5)` with start `A` and goal `C`,
BFS does not return `([A, B, C], 2)`: it returns `([A, C], 5)`, because `C`
is discovered as a direct child of `A` (its parent is recorded as `A` and
never replaced) and the goal test happens when `C` is popped. -/
theorem bfs_triangle_refutes_claim :
    bfs triangleGraph "A" "C" 10 = some (["A", "C"], 5) ∧
      bfs triangleGraph "A" "C" 10 ≠ some (["A", "B", "C"], 2) := by
  constructor
  · decide
  · decide

/-- C1 (amended): on the `A-B(1), B-C(1), A-C(5)` scenario, DFS returns the
path `[A, B, C]` with cost 2, while BFS returns `[A, C]` with cost 5; both
hold for any sufficient fuel. -/
theorem triangle_search_results :
    ∀ extra,
      dfs triangleGraph "A" "C" (10 + extra) = some (["A", "B", "C"], 2) ∧
        bfs triangleGraph "A" "C" (10 + extra) = some (["A", "C"], 5) := by
  intro extra
  constructor
  · exact runLoop_add_fst _ 10 _ _ (by decide) extra
  · exact runLoop_add_fst _ 10 _ _ (by decide) extra

/-- C2: with the graph `A-B(1)` and the unreachable goal `D`, every
frontier empties without `D` being popped.  BFS, DFS and Best-First then
return `([], 0)`, but `a_star_search` has no `return` statement after its
`while` loop: it falls off the end and returns Python `None` (modelled
`some none`), not `([], 0)`.  The heuristic argument `fun _ => ⊤` reflects
that `D` has no stored coordinates, so line 423 of `searcher.py` makes every
heuristic value `float('inf')`. -/
theorem frontier_exhaustion_results :
    ∀ extra,
      bfs abGraph "A" "D" (10 + extra) = some ([], 0) ∧
        dfs abGraph "A" "D" (10 + extra) = some ([], 0) ∧
        best_first_search abGraph abLoaded.heuristics "A" "D" (10 + extra) =
          some ([], 0) ∧
        a_star_search abGraph (fun _ => ⊤) "A" "D" (10 + extra) = some none := by
  intro extra
  refine ⟨?_, ?_, ?_, ?_⟩
  · exact runLoop_add_fst _ 10 _ _ (by decide) extra
  · exact runLoop_add_fst _ 10 _ _ (by decide) extra
  · exact runLoop_add_fst _ 10 _ _ (by decide) extra
  · exact runLoop_add_fst _ 10 _ _ (by decide) extra

/-! ## Association-list lemmas -/

theorem alookup_nil (k : String) : alookup ([] : List (String × α)) k = none :=
  rfl

theorem alookup_cons (e : String × α) (m : List (String × α)) (k : String) :
    alookup (e :: m) k = if e.1 = k then some e.2 else alookup m k := by
  by_cases h : e.1 = k <;> simp [alookup, List.find?_cons, h]

theorem alookup_append (m₁ m₂ : List (String × α)) (k : String) :
    alookup (m₁ ++ m₂) k =
      if (alookup m₁ k).isSome then alookup m₁ k else alookup m₂ k := by
  induction m₁ with
  | nil => simp [alookup_nil]
  | cons e m ih =>
    by_cases h : e.1 = k <;> simp [alookup_cons, h, ih]

theorem alookup_isSome_iff_mem (m : List (String × α)) (k : String) :
    (alookup m k).isSome ↔ k ∈ m.map Prod.fst := by
  induction m with
  | nil => simp [alookup_nil]
  | cons e m ih =>
    rw [alookup_cons]
    by_cases h : e.1 = k
    · simp [h]
    · simp only [List.map_cons, List.mem_cons]
      rw [if_neg h, ih]
      constructor
      · exact fun h1 => Or.inr h1
      · rintro (h1 | h1)
        · exact absurd h1.symm h
        · exact h1

theorem alookup_map_overwrite (m : List (String × α)) (k : String) (v : α) :
    alookup (m.map (fun e => if e.1 == k then (k, v) else e)) k =
      (alookup m k).map (fun _ => v) := by
  induction m with
  | nil => simp [alookup_nil]
  | cons e m ih =>
    by_cases h : e.1 = k
    · simp [alookup_cons, h]
    · simp only [List.map_cons]
      rw [if_neg (by simpa using h)]
      rw [alookup_cons, if_neg h, alookup_cons, if_neg h, ih]

theorem alookup_map_overwrite_ne (m : List (String × α)) (k : String) (v : α)
    (k' : String) (h : k' ≠ k) :
    alookup (m.map (fun e => if e.1 == k then (k, v) else e)) k' =
      alookup m k' := by
  induction m with
  | nil => simp [alookup_nil]
  | cons e m ih =>
    by_cases hek : e.1 = k
    · simp only [List.map_cons]
      rw [if_pos (by simpa using hek)]
      rw [alookup_cons, alookup_cons]
      simp only []
      rw [if_neg (fun hkk => h hkk.symm), if_neg (fun hh => h (hek ▸ hh).symm), ih]
    · simp only [List.map_cons]
      rw [if_neg (by simpa using hek)]
      rw [alookup_cons, alookup_cons, ih]

theorem alookup_aset_self (m : List (String × α)) (k : String) (v : α) :
    alookup (aset m k v) k = some v := by
  unfold aset
  by_cases h : (alookup m k).isSome
  · rw [if_pos h, alookup_map_overwrite]
    obtain ⟨w, hw⟩ := Option.isSome_iff_exists.mp h
    simp [hw]
  · rw [if_neg h, alookup_append]
    simp only [h, if_false]
    simp [alookup_cons]

theorem alookup_aset_ne (m : List (String × α)) (k : String) (v : α)
    (k' : String) (h : k' ≠ k) : alookup (aset m k v) k' = alookup m k' := by
  unfold aset
  by_cases hs : (alookup m k).isSome
  · rw [if_pos hs, alookup_map_overwrite_ne m k v k' h]
  · rw [if_neg hs, alookup_append]
    by_cases h2 : (alookup m k' ).isSome
    · rw [if_pos h2]
    · rw [if_neg h2, alookup_cons]
      rw [if_neg (fun hkk => h hkk.symm), alookup_nil]
      exact (Option.not_isSome_iff_eq_none.mp h2).symm

theorem alookup_aset_isSome (m : List (String × α)) (k : String) (v : α)
    (l : String) :
    (alookup (aset m k v) l).isSome ↔ (alookup m l).isSome ∨ l = k := by
  by_cases h : l = k
  · subst h; simp [alookup_aset_self]
  · rw [alookup_aset_ne m k v l h]; simp [h]

/-! ## Graph store lemmas and C9 -/

theorem graphLookup_graphEnsureKey (g : Graph) (k u : String) :
    alookup (graphEnsureKey g k) u =
      if (alookup g u).isSome then alookup g u
      else if k = u then some [] else none := by
  unfold graphEnsureKey
  by_cases hs : (alookup g k).isSome
  · rw [if_pos hs]
    by_cases hu : (alookup g u).isSome
    · rw [if_pos hu]
    · rw [if_neg hu]
      by_cases hku : k = u
      · subst hku; exact absurd hs hu
      · rw [if_neg hku]
        exact Option.not_isSome_iff_eq_none.mp hu
  · rw [if_neg hs, alookup_append]
    by_cases hu : (alookup g u).isSome
    · rw [if_pos hu, if_pos hu]
    · rw [if_neg hu, if_neg hu, alookup_cons]
      by_cases hku : k = u
      · rw [if_pos hku, if_pos hku]
      · rw [if_neg hku, if_neg hku, alookup_nil]

theorem memAdj_graphEnsureKey (g : Graph) (k u v : String) (w : Int) :
    memAdj (graphEnsureKey g k) u v w ↔ memAdj g u v w := by
  unfold memAdj
  rw [graphLookup_graphEnsureKey]
  by_cases hu : (alookup g u).isSome
  · rw [if_pos hu]
  · rw [if_neg hu]
    constructor
    · rintro ⟨ns, hns, hmem⟩
      by_cases hku : k = u
      · rw [if_pos hku] at hns
        cases hns
        simp at hmem
      · rw [if_neg hku] at hns
        cases hns
    · rintro ⟨ns, hns, -⟩
      exact absurd (Option.isSome_iff_exists.mpr ⟨ns, hns⟩) hu

theorem graphEnsureKey_isSome (g : Graph) (k l : String) :
    (alookup (graphEnsureKey g k) l).isSome ↔
      (alookup g l).isSome ∨ k = l := by
  rw [graphLookup_graphEnsureKey]
  by_cases hu : (alookup g l).isSome
  · simp [hu]
  · simp only [hu, if_false, false_or]
    by_cases hkl : k = l <;> simp [hkl]

theorem graphLookup_graphAppend (g : Graph) (k : String) (n : SearchNode)
    (u : String) :
    alookup (graphAppend g k n) u =
      if u = k then (alookup g u).map (fun ns => ns ++ [n])
      else alookup g u := by
  unfold graphAppend alookup
  rw [List.find?_map]
  have hpred :
      ((fun e : String × List SearchNode => e.1 == u) ∘
          fun e => if e.1 == k then (e.1, e.2 ++ [n]) else e) =
        fun e : String × List SearchNode => e.1 == u := by
    funext e
    by_cases h : e.1 = k <;> simp [Function.comp, h]
  rw [hpred]
  cases hf : g.find? (fun e => e.1 == u) with
  | none => simp
  | some e =>
    have he : e.1 = u := by simpa using List.find?_some hf
    by_cases huk : u = k
    · simp [he, huk]
    · have : ¬ e.1 = k := fun h => huk (he.symm.trans h)
      simp [this, huk]

theorem memAdj_graphAppend (g : Graph) (k : String) (n : SearchNode)
    (u v : String) (w : Int) :
    memAdj (graphAppend g k n) u v w ↔
      memAdj g u v w ∨
        (u = k ∧ (alookup g k).isSome ∧ n = SearchNode.mk v w) := by
  unfold memAdj
  rw [graphLookup_graphAppend]
  by_cases huk : u = k
  · subst huk
    rw [if_pos rfl]
    constructor
    · rintro ⟨ns, hns, hmem⟩
      obtain ⟨ms, hms⟩ : ∃ ms, alookup g u = some ms := by
        cases hg : alookup g u with
        | none => rw [hg] at hns; cases hns
        | some ms => exact ⟨ms, rfl⟩
      rw [hms] at hns
      simp only [Option.map_some'] at hns
      cases hns
      rcases List.mem_append.mp hmem with h1 | h1
      · exact Or.inl ⟨ms, hms, h1⟩
      · simp only [List.mem_singleton] at h1
        exact Or.inr ⟨rfl, by simp [hms], h1.symm⟩
    · rintro (⟨ns, hns, hmem⟩ | ⟨-, hsome, hn⟩)
      · exact ⟨ns ++ [n], by simp [hns], List.mem_append.mpr (Or.inl hmem)⟩
      · obtain ⟨ns, hns⟩ := Option.isSome_iff_exists.mp hsome
        exact ⟨ns ++ [n], by simp [hns], List.mem_append.mpr (Or.inr (by simp [hn]))⟩
  · rw [if_neg huk]
    constructor
    · intro h; exact Or.inl h
    · rintro (h | ⟨h1, -⟩)
      · exact h
      · exact absurd h1 huk

theorem loadStep_symAdj (st : LoadedGraph) (ln : EdgeLine)
    (hsym : SymAdj st.graph) : SymAdj (loadStep st ln).graph := by
  intro u v w h
  simp only [loadStep] at h ⊢
  set n0 := upper ln.node with hn0
  set m0 := upper ln.nbr with hm0
  set g2 := graphEnsureKey (graphEnsureKey st.graph n0) m0 with hg2
  have hkn : (alookup g2 n0).isSome := by
    rw [hg2, graphEnsureKey_isSome]
    left
    rw [graphEnsureKey_isSome]
    right; rfl
  have hkm : (alookup g2 m0).isSome := by
    rw [hg2, graphEnsureKey_isSome]
    right; rfl
  have hg2adj : ∀ a b c, memAdj g2 a b c ↔ memAdj st.graph a b c := by
    intro a b c
    rw [hg2, memAdj_graphEnsureKey, memAdj_graphEnsureKey]
  set g3 := graphAppend g2 n0 ⟨m0, ln.weight⟩ with hg3
  have hkm3 : (alookup g3 m0).isSome := by
    rw [hg3, graphLookup_graphAppend]
    by_cases h0 : m0 = n0
    · rw [if_pos h0, h0]
      obtain ⟨ns, hns⟩ := Option.isSome_iff_exists.mp hkn
      simp [hns]
    · rw [if_neg h0]; exact hkm
  rw [memAdj_graphAppend] at h
  rcases h with h | ⟨hu, -, hn⟩
  · rw [hg3, memAdj_graphAppend] at h
    rcases h with h | ⟨hu, -, hn⟩
    · -- an old edge: flip with hsym and re-embed
      have := hsym u v w ((hg2adj u v w).mp h)
      rw [memAdj_graphAppend, hg3, memAdj_graphAppend]
      exact Or.inl (Or.inl ((hg2adj v u w).mpr this))
    · -- the new n0 → m0 edge: its flip is the new m0 → n0 edge
      injection hn with h1 h2
      subst h1
      subst h2
      rw [memAdj_graphAppend]
      exact Or.inr ⟨rfl, hkm3, by rw [hu]⟩
  · -- the new m0 → n0 edge: its flip is the new n0 → m0 edge
    injection hn with h1 h2
    subst h1
    subst h2
    rw [memAdj_graphAppend, hg3, memAdj_graphAppend]
    exact Or.inl (Or.inr ⟨rfl, hkn, by rw [hu]⟩)

theorem load_graph_symAdj_aux (lines : List EdgeLine) :
    ∀ st : LoadedGraph, SymAdj st.graph →
      SymAdj (lines.foldl loadStep st).graph := by
  induction lines with
  | nil => intro st h; exact h
  | cons ln rest ih =>
    intro st h
    exact ih (loadStep st ln) (loadStep_symAdj st ln h)

/-- C9: after `load_graph`, the adjacency mapping is symmetric: every entry
`(v, w)` on `u`'s neighbor sequence is mirrored by an entry `(u, w)` with the
same weight on `v`'s neighbor sequence. -/
theorem load_graph_adjacency_symmetric (lines : List EdgeLine) (u v : String)
    (w : Int) (ns : List SearchNode)
    (h1 : alookup (load_graph lines).graph u = some ns)
    (h2 : SearchNode.mk v w ∈ ns) :
    ∃ ms, alookup (load_graph lines).graph v = some ms ∧
      SearchNode.mk u w ∈ ms := by
  have hsym : SymAdj (load_graph lines).graph :=
    load_graph_symAdj_aux lines ⟨[], [], []⟩ (by rintro u v w ⟨ns, hns, -⟩; cases hns)
  exact hsym u v w ⟨ns, h1, h2⟩

/-- Witness for C9 at the concrete single-edge graph. -/
theorem load_graph_adjacency_symmetric_witness :
    alookup (load_graph abLines).graph "A" = some [⟨"B", 1⟩] ∧
      SearchNode.mk "B" 1 ∈ [SearchNode.mk "B" 1] ∧
      ∃ ms, alookup (load_graph abLines).graph "B" = some ms ∧
        SearchNode.mk "A" 1 ∈ ms :=
  ⟨by decide, by decide,
    load_graph_adjacency_symmetric abLines "A" "B" 1 [⟨"B", 1⟩] (by decide)
      (by decide)⟩

/-! ## Parent assignments are guarded: C4, C5 -/

theorem bfsAssign_assignInv (cur : String) :
    ∀ (children : List SearchNode) (parent : ParentMap)
      (tr : List (String × String)),
      AssignInv parent tr →
      AssignInv (bfsAssign cur parent tr children).1
        (bfsAssign cur parent tr children).2 := by
  intro children
  induction children with
  | nil => intro parent tr h; exact h
  | cons c rest ih =>
    intro parent tr h
    rw [bfsAssign]
    by_cases hc : (alookup parent c.label).isSome
    · rw [if_pos hc]
      exact ih parent tr h
    · rw [if_neg hc]
      apply ih
      obtain ⟨hnd, hkeys⟩ := h
      constructor
      · rw [List.map_append]
        refine List.Nodup.append hnd (List.nodup_singleton _) ?_
        intro l hl hl2
        simp only [List.map_cons, List.map_nil, List.mem_singleton] at hl2
        subst hl2
        exact hc (hkeys _ hl)
      · intro l hl
        rw [List.map_append] at hl
        rcases List.mem_append.mp hl with h1 | h1
        · rw [alookup_aset_isSome]
          exact Or.inl (hkeys l h1)
        · simp only [List.map_cons, List.map_nil, List.mem_singleton] at h1
          subst h1
          rw [alookup_aset_self]
          rfl

theorem bfsStep_cont_assignInv (graph : Graph) (start goal : String)
    (s s' : BfsState) (hP : AssignInv s.parent s.assignTrace)
    (hstep : bfsStep graph start goal s = .cont s') :
    AssignInv s'.parent s'.assignTrace := by
  rw [bfsStep] at hstep
  split at hstep
  · cases hstep
  · split at hstep
    · cases hstep
      exact hP
    · split at hstep
      · split at hstep <;> cases hstep
      · split at hstep
        · cases hstep
        · cases hstep
          exact bfsAssign_assignInv _ _ _ _ hP

theorem bfsStep_other_assignInv (graph : Graph) (start goal : String)
    (s : BfsState) (hP : AssignInv s.parent s.assignTrace) :
    (∀ r s', bfsStep graph start goal s = .ret r s' →
        AssignInv s'.parent s'.assignTrace) ∧
      (∀ s', bfsStep graph start goal s = .err s' →
        AssignInv s'.parent s'.assignTrace) := by
  constructor
  · intro r s' hstep
    rw [bfsStep] at hstep
    split at hstep
    · cases hstep; exact hP
    · split at hstep
      · cases hstep
      · split at hstep
        · split at hstep
          · cases hstep
          · cases hstep; exact hP
        · split at hstep <;> cases hstep
  · intro s' hstep
    rw [bfsStep] at hstep
    split at hstep
    · cases hstep
    · split at hstep
      · cases hstep
      · split at hstep
        · split at hstep
          · cases hstep; exact hP
          · cases hstep
        · split at hstep
          · cases hstep; exact hP
          · cases hstep

/-- C4 (amended): in BFS a parent entry is recorded only for a neighbor not
yet in the parent map, so over any BFS run the parent-assignment trace has
pairwise-distinct keys (no parent is ever replaced); in DFS the assignment is
unconditional, and on the triangle `A-B(1), A-C(1), B-C(1)` with start `A`
the run assigns `parent[C] = A` and later replaces it by `parent[C] = B`. -/
theorem bfs_parent_assigned_once :
    (∀ (graph : Graph) (start goal : String) (fuel : Nat),
        (((bfsAux graph start goal fuel).2.assignTrace).map Prod.fst).Nodup) ∧
      (dfsAux eqTriangleGraph "A" "Z" 20).2.assignTrace =
          [("C", "A"), ("B", "A"), ("C", "B")] ∧
      ¬ ((((dfsAux eqTriangleGraph "A" "Z" 20).2.assignTrace).map
          Prod.fst).Nodup) := by
  refine ⟨?_, by decide, by decide⟩
  intro graph start goal fuel
  have hinit : AssignInv (searchInit start).parent (searchInit start).assignTrace := by
    constructor
    · exact List.nodup_nil
    · intro l hl
      cases hl
  have := runLoop_inv (bfsStep graph start goal)
    (fun s => AssignInv s.parent s.assignTrace)
    (fun s s' hP h => bfsStep_cont_assignInv graph start goal s s' hP h)
    (fun s r s' hP h => (bfsStep_other_assignInv graph start goal s hP).1 r s' h)
    (fun s s' hP h => (bfsStep_other_assignInv graph start goal s hP).2 s' h)
    fuel (searchInit start) hinit
  exact this.1

/-- C4 counterexample: the claim's universal statement over BFS *and* DFS
fails on DFS: on the triangle `A-B(1), A-C(1), B-C(1)` from `A`, node `C`'s
parent is first recorded as `A` and later replaced by `B`. -/
theorem dfs_parent_replaced :
    (dfsAux eqTriangleGraph "A" "Z" 20).2.assignTrace =
        [("C", "A"), ("B", "A"), ("C", "B")] ∧
      ("C", "A") ≠ ("C", "B") := by
  constructor <;> decide

theorem bestFsChildren_assignInv (htbl : HTable) (cur : String) :
    ∀ (children : List SearchNode) (parent : ParentMap)
      (pq : List (String × Int)) (tr : List (String × String)) out,
      AssignInv parent tr →
      bestFsChildren htbl cur parent pq tr children = some out →
      AssignInv out.1 out.2.2 := by
  intro children
  induction children with
  | nil =>
    intro parent pq tr out h hout
    rw [bestFsChildren] at hout
    cases hout
    exact h
  | cons c rest ih =>
    intro parent pq tr out h hout
    rw [bestFsChildren] at hout
    split at hout
    · cases hout
    · by_cases hc : (alookup parent c.label).isSome
      · rw [if_pos hc] at hout
        exact ih _ _ _ out h hout
      · rw [if_neg hc] at hout
        refine ih _ _ _ out ?_ hout
        obtain ⟨hnd, hkeys⟩ := h
        constructor
        · rw [List.map_append]
          refine List.Nodup.append hnd (List.nodup_singleton _) ?_
          intro l hl hl2
          simp only [List.map_cons, List.map_nil, List.mem_singleton] at hl2
          subst hl2
          exact hc (hkeys _ hl)
        · intro l hl
          rw [List.map_append] at hl
          rcases List.mem_append.mp hl with h1 | h1
          · rw [alookup_aset_isSome]
            exact Or.inl (hkeys l h1)
          · simp only [List.map_cons, List.map_nil, List.mem_singleton] at h1
            subst h1
            rw [alookup_aset_self]
            rfl

/-- C5: Best-First search records a node's parent only the first time the
node is discovered and never revises it: over any run (any graph, heuristic
table, endpoints and fuel) the parent-assignment trace has pairwise-distinct
keys, so no later re-discovery — cheaper or not — replaces a parent. -/
theorem best_first_parent_assigned_once (graph : Graph) (htbl : HTable)
    (start goal : String) (fuel : Nat) :
    (((bestFirstAux graph htbl start goal fuel).2.assignTrace).map
      Prod.fst).Nodup := by
  have hinit : AssignInv (bestFsInit start).parent (bestFsInit start).assignTrace := by
    constructor
    · exact List.nodup_nil
    · intro l hl
      cases hl
  have hcont : ∀ s s', AssignInv s.parent s.assignTrace →
      bestFirstStep graph htbl start goal s = .cont s' →
      AssignInv s'.parent s'.assignTrace := by
    intro s s' hP hstep
    rw [bestFirstStep] at hstep
    split at hstep
    · cases hstep
    · split at hstep
      · split at hstep <;> cases hstep
      · split at hstep
        · cases hstep
        · dsimp only at hstep
          split at hstep
          · cases hstep
          · cases hstep
            next out hout =>
              exact bestFsChildren_assignInv htbl _ _ _ _ _ out hP hout
  have hsame : ∀ s s'' , (∃ r, bestFirstStep graph htbl start goal s = .ret r s'') ∨
      bestFirstStep graph htbl start goal s = .err s'' →
      AssignInv s.parent s.assignTrace →
      AssignInv s''.parent s''.assignTrace := by
    intro s s'' hcase hP
    rcases hcase with ⟨r, hstep⟩ | hstep
    · rw [bestFirstStep] at hstep
      split at hstep
      · cases hstep; exact hP
      · split at hstep
        · split at hstep
          · cases hstep
          · cases hstep; exact hP
        · split at hstep
          · cases hstep
          · dsimp only at hstep
            split at hstep
            · cases hstep
            · cases hstep
    · rw [bestFirstStep] at hstep
      split at hstep
      · cases hstep
      · split at hstep
        · split at hstep
          · cases hstep; exact hP
          · cases hstep
        · split at hstep
          · cases hstep; exact hP
          · dsimp only at hstep
            split at hstep
            · cases hstep; exact hP
            · cases hstep
  have := runLoop_inv (bestFirstStep graph htbl start goal)
    (fun s => AssignInv s.parent s.assignTrace)
    (fun s s' hP h => hcont s s' hP h)
    (fun s r s' hP h => hsame s s' (Or.inl ⟨r, h⟩) hP)
    (fun s s' hP h => hsame s s' (Or.inr h) hP)
    fuel (bestFsInit start) hinit
  exact this.1

/-! ## BFS pushes each label at most once: C10 -/

theorem alookup_eq_some_mem (m : List (String × α)) (k : String) (v : α)
    (h : alookup m k = some v) : (k, v) ∈ m := by
  unfold alookup at h
  cases hf : m.find? (fun e => e.1 == k) with
  | none => rw [hf] at h; cases h
  | some e =>
    rw [hf] at h
    simp only [Option.map_some'] at h
    have he1 : e.1 = k := by simpa using List.find?_some hf
    have hmem := List.mem_of_find?_eq_some hf
    cases h
    subst he1
    exact hmem

theorem nodupAdj_lookup (g : Graph) (hnd : NodupAdj g) (k : String)
    (nbrs : List SearchNode) (h : alookup g k = some nbrs) :
    (nbrs.map SearchNode.label).Nodup :=
  hnd (k, nbrs) (alookup_eq_some_mem g k nbrs h)

theorem sortNodes_perm (l : List SearchNode) : List.Perm (sortNodes l) l :=
  List.perm_insertionSort _ l

theorem bfsAssign_isSome (cur : String) :
    ∀ (ch : List SearchNode) (parent : ParentMap) (tr : List (String × String))
      (l : String),
      (alookup (bfsAssign cur parent tr ch).1 l).isSome ↔
        ((alookup parent l).isSome ∨ l ∈ ch.map SearchNode.label) := by
  intro ch
  induction ch with
  | nil =>
    intro parent tr l
    simp [bfsAssign]
  | cons c rest ih =>
    intro parent tr l
    rw [bfsAssign]
    by_cases hc : (alookup parent c.label).isSome
    · rw [if_pos hc, ih]
      simp only [List.map_cons, List.mem_cons]
      constructor
      · rintro (h | h)
        · exact Or.inl h
        · exact Or.inr (Or.inr h)
      · rintro (h | h | h)
        · exact Or.inl h
        · exact Or.inl (h ▸ hc)
        · exact Or.inr h
    · rw [if_neg hc, ih]
      simp only [List.map_cons, List.mem_cons]
      rw [alookup_aset_isSome]
      tauto

theorem bfs_expand_pushInv (graph : Graph) (hnd : NodupAdj graph)
    (s : BfsState) (hP : PushInv s) (current : SearchNode)
    (rest : List SearchNode) (nbrs : List SearchNode)
    (hq : s.queue = current :: rest)
    (hlk : alookup graph current.label = some nbrs) :
    PushInv
      { queue := rest ++ sortNodes (nbrs.filter (fun nb =>
            !((s.visited ++ [current.label]).contains nb.label) &&
              (alookup s.parent nb.label).isNone)),
        visited := s.visited ++ [current.label],
        parent := (bfsAssign current.label s.parent s.assignTrace
          (nbrs.filter (fun nb =>
            !((s.visited ++ [current.label]).contains nb.label) &&
              (alookup s.parent nb.label).isNone))).1,
        pushTrace := s.pushTrace ++ (sortNodes (nbrs.filter (fun nb =>
            !((s.visited ++ [current.label]).contains nb.label) &&
              (alookup s.parent nb.label).isNone))).map (fun c => c.label),
        assignTrace := (bfsAssign current.label s.parent s.assignTrace
          (nbrs.filter (fun nb =>
            !((s.visited ++ [current.label]).contains nb.label) &&
              (alookup s.parent nb.label).isNone))).2,
        guardHits := s.guardHits } := by
  obtain ⟨hqN, hqF, hqK, hpN, hpK, hg0⟩ := hP
  set children := nbrs.filter (fun nb =>
    !((s.visited ++ [current.label]).contains nb.label) &&
      (alookup s.parent nb.label).isNone) with hch
  have hchProp : ∀ c ∈ children, c.label ∉ s.visited ++ [current.label] ∧
      (alookup s.parent c.label).isNone := by
    intro c hc
    rw [hch, List.mem_filter] at hc
    obtain ⟨-, hc2⟩ := hc
    rw [Bool.and_eq_true] at hc2
    obtain ⟨h1, h2⟩ := hc2
    refine ⟨?_, h2⟩
    intro hmem
    rw [Bool.not_eq_true'] at h1
    simp at h1
    rcases List.mem_append.mp hmem with hm | hm
    · exact h1.1 hm
    · simp only [List.mem_singleton] at hm
      exact h1.2 hm
  have hchN : (children.map SearchNode.label).Nodup := by
    have hn : (nbrs.map SearchNode.label).Nodup := nodupAdj_lookup graph hnd _ nbrs hlk
    have hsub : List.Sublist (children.map SearchNode.label)
        (nbrs.map SearchNode.label) := by
      rw [hch]
      exact List.Sublist.map _ (List.filter_sublist nbrs)
    exact hn.sublist hsub
  have hperm : List.Perm ((sortNodes children).map SearchNode.label)
      (children.map SearchNode.label) := (sortNodes_perm children).map _
  refine ⟨?_, ?_, ?_, ?_, ?_, hg0⟩
  · rw [List.map_append]
    refine List.Nodup.append ?_ (hperm.nodup_iff.mpr hchN) ?_
    · rw [hq] at hqN
      simp only [List.map_cons] at hqN
      exact (List.nodup_cons.mp hqN).2
    · intro l hl hl2
      have hlK : (alookup s.parent l).isSome := by
        apply hqK
        rw [hq]
        simp only [List.map_cons, List.mem_cons]
        exact Or.inr hl
      rcases List.mem_map.mp (hperm.mem_iff.mp hl2) with ⟨c, hc, rfl⟩
      have h2 := (hchProp c hc).2
      rw [Option.isNone_iff_eq_none] at h2
      rw [h2] at hlK
      exact absurd hlK (by simp)
  · intro l hl
    rw [List.map_append, List.mem_append] at hl
    rcases hl with hl | hl
    · intro hmem
      rcases List.mem_append.mp hmem with h1 | h1
      · refine hqF l ?_ h1
        rw [hq]
        simp only [List.map_cons, List.mem_cons]
        exact Or.inr hl
      · simp only [List.mem_singleton] at h1
        subst h1
        rw [hq] at hqN
        simp only [List.map_cons] at hqN
        exact (List.nodup_cons.mp hqN).1 hl
    · rcases List.mem_map.mp (hperm.mem_iff.mp hl) with ⟨c, hc, rfl⟩
      exact (hchProp c hc).1
  · intro l hl
    rw [List.map_append, List.mem_append] at hl
    rw [bfsAssign_isSome]
    rcases hl with hl | hl
    · refine Or.inl (hqK l ?_)
      rw [hq]
      simp only [List.map_cons, List.mem_cons]
      exact Or.inr hl
    · exact Or.inr (hperm.mem_iff.mp hl)
  · refine List.Nodup.append hpN (hperm.nodup_iff.mpr hchN) ?_
    intro l hl hl2
    have h1 : (alookup s.parent l).isSome := hpK l hl
    rcases List.mem_map.mp (hperm.mem_iff.mp hl2) with ⟨c, hc, rfl⟩
    have h2 := (hchProp c hc).2
    rw [Option.isNone_iff_eq_none] at h2
    rw [h2] at h1
    exact absurd h1 (by simp)
  · intro l hl
    rw [bfsAssign_isSome]
    rcases List.mem_append.mp hl with hl | hl
    · exact Or.inl (hpK l hl)
    · exact Or.inr (hperm.mem_iff.mp hl)

theorem bfs_shrink_pushInv (s : BfsState) (hP : PushInv s)
    (current : SearchNode) (rest : List SearchNode)
    (hq : s.queue = current :: rest) :
    PushInv { s with queue := rest, visited := s.visited ++ [current.label] } := by
  obtain ⟨hqN, hqF, hqK, hpN, hpK, hg0⟩ := hP
  rw [hq] at hqN hqF hqK
  simp only [List.map_cons] at hqN hqF hqK
  refine ⟨(List.nodup_cons.mp hqN).2, ?_, ?_, hpN, hpK, hg0⟩
  · intro l hl hmem
    rcases List.mem_append.mp hmem with h1 | h1
    · exact hqF l (List.mem_cons_of_mem _ hl) h1
    · simp only [List.mem_singleton] at h1
      subst h1
      exact (List.nodup_cons.mp hqN).1 hl
  · intro l hl
    exact hqK l (List.mem_cons_of_mem _ hl)

theorem bfsStep_pushInv (graph : Graph) (hnd : NodupAdj graph)
    (start goal : String) (s : BfsState) (hP : PushInv s) :
    (∀ s', bfsStep graph start goal s = .cont s' → PushInv s') ∧
      (∀ r s', bfsStep graph start goal s = .ret r s' → PushInv s') ∧
      (∀ s', bfsStep graph start goal s = .err s' → PushInv s') := by
  refine ⟨?_, ?_, ?_⟩
  · intro s' hstep
    rw [bfsStep] at hstep
    split at hstep
    · cases hstep
    next current rest hq =>
      split at hstep
      next hv =>
        refine absurd hv (hP.2.1 current.label ?_)
        rw [hq]
        simp
      next hv =>
        split at hstep
        · split at hstep <;> cases hstep
        · split at hstep
          · cases hstep
          next nbrs hlk =>
            cases hstep
            exact bfs_expand_pushInv graph hnd s hP current rest nbrs hq hlk
  · intro r s' hstep
    rw [bfsStep] at hstep
    split at hstep
    next hq =>
      cases hstep
      exact hP
    next current rest hq =>
      split at hstep
      · cases hstep
      · split at hstep
        · split at hstep
          · cases hstep
          · cases hstep
            exact bfs_shrink_pushInv s hP current rest hq
        · split at hstep <;> cases hstep
  · intro s' hstep
    rw [bfsStep] at hstep
    split at hstep
    · cases hstep
    next current rest hq =>
      split at hstep
      · cases hstep
      · split at hstep
        · split at hstep
          · cases hstep
            exact bfs_shrink_pushInv s hP current rest hq
          · cases hstep
        · split at hstep
          · cases hstep
            exact bfs_shrink_pushInv s hP current rest hq
          · cases hstep

/-- C10 (amended): on graphs whose adjacency lists repeat no neighbor label
(as when each undirected edge appears once in the description file), every
node label is pushed onto the BFS queue at most once and the duplicate-pop
guard never fires; the at-most-once property fails for the DFS stack, whose
children are filtered only by the visited set (triangle `A-B, A-C, B-C`). -/
theorem bfs_push_at_most_once :
    (∀ (graph : Graph) (start goal : String) (fuel : Nat), NodupAdj graph →
        (bfsAux graph start goal fuel).2.pushTrace.Nodup ∧
          (bfsAux graph start goal fuel).2.guardHits = 0) ∧
      ¬ (dfsAux eqTriangleGraph "A" "Z" 20).2.pushTrace.Nodup := by
  constructor
  · intro graph start goal fuel hnd
    have hinit : PushInv (searchInit start) := by
      refine ⟨?_, ?_, ?_, ?_, ?_, rfl⟩
      · simp [searchInit]
      · intro l hl h
        simp [searchInit] at h
      · intro l hl
        simp only [searchInit, List.map_cons, List.map_nil,
          List.mem_singleton] at hl
        subst hl
        simp [searchInit, alookup_cons]
      · simp [searchInit]
      · intro l hl
        simp only [searchInit, List.mem_singleton] at hl
        subst hl
        simp [searchInit, alookup_cons]
    have hfin := runLoop_inv (bfsStep graph start goal) PushInv
      (fun s s' hP h => (bfsStep_pushInv graph hnd start goal s hP).1 s' h)
      (fun s r s' hP h => (bfsStep_pushInv graph hnd start goal s hP).2.1 r s' h)
      (fun s s' hP h => (bfsStep_pushInv graph hnd start goal s hP).2.2 s' h)
      fuel (searchInit start) hinit
    exact ⟨hfin.2.2.2.1, hfin.2.2.2.2.2⟩
  · decide

/-- C10 counterexample: listing the edge `A-B(1)` twice gives `A` the
adjacency list `[B(1), B(1)]`; BFS then pushes the label `B` twice and the
duplicate-pop guard fires once, refuting the claim's at-most-once and
guard-never-taken statements for general loaded graphs. -/
theorem bfs_duplicate_push_on_multigraph :
    (bfsAux dupEdgeGraph "A" "Z" 20).2.pushTrace = ["A", "B", "B"] ∧
      ¬ (bfsAux dupEdgeGraph "A" "Z" 20).2.pushTrace.Nodup ∧
      (bfsAux dupEdgeGraph "A" "Z" 20).2.guardHits = 1 :=
  ⟨by decide, by decide, by decide⟩

/-- Witness for the amended C10 at a concrete duplicate-free graph. -/
theorem bfs_push_at_most_once_witness :
    NodupAdj abGraph ∧
      (bfsAux abGraph "A" "B" 10).2.pushTrace.Nodup ∧
      (bfsAux abGraph "A" "B" 10).2.guardHits = 0 :=
  ⟨by unfold NodupAdj; decide,
    bfs_push_at_most_once.1 abGraph "A" "B" 10 (by unfold NodupAdj; decide)⟩

/-! ## Best-First frontier: decrease-key in place, no duplicates (C6) -/

theorem bestFirstInsert_fst_nodup (pq : List (String × Int)) (lbl : String)
    (hv : Int) (h : (pq.map Prod.fst).Nodup) :
    ((bestFirstInsert pq lbl hv).map Prod.fst).Nodup := by
  unfold bestFirstInsert
  by_cases ha : pq.any (fun e => e.1 == lbl)
  · rw [if_pos ha]
    have : (pq.map (fun e =>
        if e.1 == lbl && decide (hv < e.2) then (lbl, hv) else e)).map Prod.fst =
        pq.map Prod.fst := by
      rw [List.map_map]
      apply List.map_congr_left
      intro e he
      by_cases hc : (e.1 == lbl && decide (hv < e.2)) = true
      · simp only [Function.comp, hc, if_pos]
        rw [Bool.and_eq_true] at hc
        have : e.1 = lbl := by simpa using hc.1
        simp [this]
      · simp [Function.comp, hc]
    rw [this]
    exact h
  · rw [if_neg ha, List.map_append]
    refine List.Nodup.append h (List.nodup_singleton _) ?_
    intro x hx hx2
    simp only [List.map_cons, List.map_nil, List.mem_singleton] at hx2
    subst hx2
    rcases List.mem_map.mp hx with ⟨e, he, rfl⟩
    exact ha (List.any_eq_true.mpr ⟨e, he, by simp⟩)

theorem bestFsChildren_queue_nodup (htbl : HTable) (cur : String) :
    ∀ (children : List SearchNode) (parent : ParentMap)
      (pq : List (String × Int)) (tr : List (String × String)) out,
      (pq.map Prod.fst).Nodup →
      bestFsChildren htbl cur parent pq tr children = some out →
      (out.2.1.map Prod.fst).Nodup := by
  intro children
  induction children with
  | nil =>
    intro parent pq tr out h hout
    rw [bestFsChildren] at hout
    cases hout
    exact h
  | cons c rest ih =>
    intro parent pq tr out h hout
    rw [bestFsChildren] at hout
    split at hout
    · cases hout
    next hv hlk =>
      exact ih _ _ _ out (bestFirstInsert_fst_nodup pq c.label hv h) hout

theorem bestFirstStep_queue_nodup (graph : Graph) (htbl : HTable)
    (start goal : String) (s s' : BestFsState)
    (h : (s.queue.map Prod.fst).Nodup)
    (hstep : bestFirstStep graph htbl start goal s = .cont s') :
    (s'.queue.map Prod.fst).Nodup := by
  rw [bestFirstStep] at hstep
  split at hstep
  · cases hstep
  next cur snd rest hsq =>
    have hsorted : ((sortedQueueI s.queue).map Prod.fst).Nodup :=
      ((List.perm_insertionSort _ s.queue).map _).nodup_iff.mpr h
    rw [hsq] at hsorted
    simp only [List.map_cons] at hsorted
    have hrest : (rest.map Prod.fst).Nodup := (List.nodup_cons.mp hsorted).2
    split at hstep
    · split at hstep <;> cases hstep
    · split at hstep
      · cases hstep
      · dsimp only at hstep
        split at hstep
        · cases hstep
        next out hout =>
          cases hstep
          exact bestFsChildren_queue_nodup htbl _ _ _ _ _ out hrest hout

/-- C6: when a child with an existing frontier entry is re-discovered with a
strictly smaller heuristic, `best_first_search` lowers the existing entry's
priority in place (same position, same length, all other entries untouched);
and the frontier never holds two entries for the same node: every state the
loop reaches from its initial state has pairwise-distinct queue labels. -/
theorem best_first_frontier_dedup :
    (∀ (pq : List (String × Int)) (lbl : String) (hv : Int) (i : Nat)
        (hi : i < pq.length) (hi2 : i < (bestFirstInsert pq lbl hv).length),
        (pq.map Prod.fst).Nodup →
        (pq.get ⟨i, hi⟩).1 = lbl → hv < (pq.get ⟨i, hi⟩).2 →
        (bestFirstInsert pq lbl hv).length = pq.length ∧
          (bestFirstInsert pq lbl hv).get ⟨i, hi2⟩ = (lbl, hv) ∧
          ∀ (j : Nat) (hj : j < pq.length)
            (hj2 : j < (bestFirstInsert pq lbl hv).length), j ≠ i →
            (bestFirstInsert pq lbl hv).get ⟨j, hj2⟩ = pq.get ⟨j, hj⟩) ∧
      ∀ (graph : Graph) (htbl : HTable) (start goal : String) (n : Nat)
        (st : BestFsState),
        bestFirstIter graph htbl start goal n (bestFsInit start) = some st →
        (st.queue.map Prod.fst).Nodup := by
  constructor
  · intro pq lbl hv i hi hi2 hnd hlbl hlt
    have hmem : pq.get ⟨i, hi⟩ ∈ pq := List.get_mem pq i hi
    have hany : pq.any (fun e => e.1 == lbl) = true :=
      List.any_eq_true.mpr ⟨pq.get ⟨i, hi⟩, hmem,
        by simp only [beq_iff_eq]; exact hlbl⟩
    have hins : bestFirstInsert pq lbl hv =
        pq.map (fun e =>
          if e.1 == lbl && decide (hv < e.2) then (lbl, hv) else e) := by
      unfold bestFirstInsert
      rw [if_pos hany]
    have hlen : (bestFirstInsert pq lbl hv).length = pq.length := by
      rw [hins, List.length_map]
    have hget : ∀ (m : Nat) (hm2 : m < (bestFirstInsert pq lbl hv).length)
        (hm : m < pq.length),
        (bestFirstInsert pq lbl hv).get ⟨m, hm2⟩ =
          (fun e => if e.1 == lbl && decide (hv < e.2) then (lbl, hv) else e)
            (pq.get ⟨m, hm⟩) := by
      intro m hm2 hm
      rw [List.get_of_eq hins ⟨m, hm2⟩, List.get_map]
    refine ⟨hlen, ?_, ?_⟩
    · rw [hget i hi2 hi]
      simp only [beq_iff_eq, hlbl, hlt]
      simp
    · intro j hj hj2 hji
      rw [hget j hj2 hj]
      have hne : ¬ ((pq.get ⟨j, hj⟩).1 = lbl) := by
        intro heq
        apply hji
        have h1 : (pq.map Prod.fst).get ⟨j, by simpa using hj⟩ =
            (pq.map Prod.fst).get ⟨i, by simpa using hi⟩ := by
          rw [List.get_map, List.get_map]
          exact heq.trans hlbl.symm
        have h2 := (List.Nodup.get_inj_iff hnd).mp h1
        simpa using congrArg Fin.val h2
      have hne2 : ¬ (pq[j].1 = lbl) := by
        simpa using hne
      have hcond : ((pq.get ⟨j, hj⟩).1 == lbl &&
          decide (hv < (pq.get ⟨j, hj⟩).2)) = false := by
        simp [hne2]
      simp only [hcond]
      simp
  · intro graph htbl start goal n st hst
    refine iterSteps_inv (bestFirstStep graph htbl start goal)
      (fun s => (s.queue.map Prod.fst).Nodup)
      (fun s s' hP h => bestFirstStep_queue_nodup graph htbl start goal s s' hP h)
      n (bestFsInit start) st ?_ hst
    simp [bestFsInit]

/-- Witness for C6: a concrete in-place decrease-key and the concrete state
after one Best-First iteration on the `A-B(1)` graph. -/
theorem best_first_frontier_dedup_witness :
    (bestFirstInsert [("B", 5), ("C", 7)] "B" 2).length = 2 ∧
      ((({ queue := [("B", 1)], visited := ["A"],
            parent := [("A", none), ("B", some "A")],
            assignTrace := [("B", "A")] } : BestFsState)).queue.map
          Prod.fst).Nodup := by
  constructor
  · exact (best_first_frontier_dedup.1 [("B", 5), ("C", 7)] "B" 2 0 (by decide)
      (by decide) (by decide) (by decide) (by decide)).1
  · exact best_first_frontier_dedup.2 abGraph abLoaded.heuristics "A" "D" 1
      { queue := [("B", 1)], visited := ["A"],
        parent := [("A", none), ("B", some "A")],
        assignTrace := [("B", "A")] } (by decide)

/-! ## A* update discipline: C3 -/

theorem aStarRelax_g_mono
    (st : List (String × Int) × ParentMap × List (String × WithTop ℚ))
    (cur : String) (gcur : Int) (nb : SearchNode) (hval : WithTop ℚ)
    (l : String) (v : Int) (h : alookup st.1 l = some v) :
    ∃ v', alookup (aStarRelax st cur gcur nb hval).1 l = some v' ∧ v' ≤ v := by
  unfold aStarRelax
  dsimp only
  by_cases hacc : aStarAccepts st.1 nb.label (gcur + nb.value) = true
  · rw [if_pos hacc]
    dsimp only
    by_cases hl : l = nb.label
    · subst hl
      refine ⟨gcur + nb.value, alookup_aset_self _ _ _, ?_⟩
      unfold aStarAccepts at hacc
      rw [h] at hacc
      exact le_of_lt (of_decide_eq_true hacc)
    · refine ⟨v, ?_, le_refl v⟩
      rw [alookup_aset_ne _ _ _ _ hl]
      exact h
  · rw [if_neg hacc]
    exact ⟨v, h, le_refl v⟩

theorem aStarChildren_g_mono (hfun : String → WithTop ℚ) (cur : String) :
    ∀ (children : List SearchNode) st out,
      aStarChildren hfun cur st children = some out →
      ∀ l v, alookup st.1 l = some v →
        ∃ v', alookup out.1 l = some v' ∧ v' ≤ v := by
  intro children
  induction children with
  | nil =>
    intro st out hout l v h
    rw [aStarChildren] at hout
    cases hout
    exact ⟨v, h, le_refl v⟩
  | cons nb rest ih =>
    intro st out hout l v h
    rw [aStarChildren] at hout
    split at hout
    · cases hout
    next gcur hg =>
      obtain ⟨v1, h1, hle1⟩ := aStarRelax_g_mono st cur gcur nb (hfun nb.label) l v h
      obtain ⟨v2, h2, hle2⟩ := ih _ out hout l v1 h1
      exact ⟨v2, h2, le_trans hle2 hle1⟩

theorem aStarStep_g_mono (graph : Graph) (hfun : String → WithTop ℚ)
    (start goal : String) (s s' : AStarState)
    (hstep : aStarStep graph hfun start goal s = .cont s') :
    ∀ l v, alookup s.g_costs l = some v →
      ∃ v', alookup s'.g_costs l = some v' ∧ v' ≤ v := by
  rw [aStarStep] at hstep
  split at hstep
  · cases hstep
  · split at hstep
    · split at hstep <;> cases hstep
    · split at hstep
      · cases hstep
      · dsimp only at hstep
        split at hstep
        · cases hstep
        next out hout =>
          cases hstep
          intro l v h
          exact aStarChildren_g_mono hfun _ _ _ out hout l v h

theorem aStarIter_g_mono (graph : Graph) (hfun : String → WithTop ℚ)
    (start goal : String) :
    ∀ (k : Nat) (s s' : AStarState),
      aStarIter graph hfun start goal k s = some s' →
      ∀ l v, alookup s.g_costs l = some v →
        ∃ v', alookup s'.g_costs l = some v' ∧ v' ≤ v := by
  intro k
  induction k with
  | zero =>
    intro s s' h l v hv
    rw [aStarIter, iterSteps] at h
    cases h
    exact ⟨v, hv, le_refl v⟩
  | succ n ih =>
    intro s s' h l v hv
    rw [aStarIter, iterSteps] at h
    split at h
    next s1 hs1 =>
      obtain ⟨v1, h1, hle1⟩ := aStarStep_g_mono graph hfun start goal s s1 hs1 l v hv
      obtain ⟨v2, h2, hle2⟩ := ih s1 s' h l v1 h1
      exact ⟨v2, h2, le_trans hle2 hle1⟩
    next hns => cases h

/-- C3: in A* a child's g-cost and parent are updated, and its frontier
entry replaced, exactly when the child has no recorded g-cost or the
tentative g-cost (g-cost of the expanded node plus edge weight) is strictly
lower (line 428 of `searcher.py`); when not accepted the relaxation leaves
the state unchanged; when accepted the g-cost map records the tentative
cost, the parent becomes the expanded node, and the frontier is left with
exactly one entry for that label — prior entries are filtered out before
the new one is appended; consequently each node's recorded g-cost is
monotonically non-increasing over any run of the search loop. -/
theorem a_star_update_discipline :
    (∀ (g : List (String × Int)) (lbl : String) (t : Int),
        aStarAccepts g lbl t = true ↔
          (alookup g lbl = none ∨ ∃ old, alookup g lbl = some old ∧ t < old)) ∧
      (∀ (st : List (String × Int) × ParentMap × List (String × WithTop ℚ))
        (cur : String) (gcur : Int) (nb : SearchNode) (hval : WithTop ℚ),
        aStarAccepts st.1 nb.label (gcur + nb.value) = false →
        aStarRelax st cur gcur nb hval = st) ∧
      (∀ (st : List (String × Int) × ParentMap × List (String × WithTop ℚ))
        (cur : String) (gcur : Int) (nb : SearchNode) (hval : WithTop ℚ),
        aStarAccepts st.1 nb.label (gcur + nb.value) = true →
        alookup (aStarRelax st cur gcur nb hval).1 nb.label =
            some (gcur + nb.value) ∧
          alookup (aStarRelax st cur gcur nb hval).2.1 nb.label =
            some (some cur) ∧
          (aStarRelax st cur gcur nb hval).2.2 =
            (st.2.2.filter (fun e => e.1 != nb.label)) ++
              [(nb.label, (((gcur + nb.value : Int) : ℚ) : WithTop ℚ) + hval)] ∧
          ((aStarRelax st cur gcur nb hval).2.2.filter
            (fun e => e.1 == nb.label)).length = 1) ∧
      ∀ (graph : Graph) (hfun : String → WithTop ℚ) (start goal : String)
        (k : Nat) (s s' : AStarState),
        aStarIter graph hfun start goal k s = some s' →
        ∀ l v, alookup s.g_costs l = some v →
          ∃ v', alookup s'.g_costs l = some v' ∧ v' ≤ v := by
  refine ⟨?_, ?_, ?_, fun graph hfun start goal k s s' h l v hv =>
    aStarIter_g_mono graph hfun start goal k s s' h l v hv⟩
  · intro g lbl t
    unfold aStarAccepts
    cases hg : alookup g lbl with
    | none => simp
    | some old =>
      simp only [decide_eq_true_eq]
      constructor
      · intro h
        exact Or.inr ⟨old, rfl, h⟩
      · rintro (h | ⟨old2, hold2, hlt⟩)
        · cases h
        · cases hold2
          exact hlt
  · intro st cur gcur nb hval hacc
    unfold aStarRelax
    dsimp only
    rw [if_neg (by rw [hacc]; exact Bool.false_ne_true)]
  · intro st cur gcur nb hval hacc
    unfold aStarRelax
    dsimp only
    rw [if_pos hacc]
    refine ⟨alookup_aset_self _ _ _, alookup_aset_self _ _ _, rfl, ?_⟩
    rw [List.filter_append]
    have h1 : (st.2.2.filter (fun e => e.1 != nb.label)).filter
        (fun e => e.1 == nb.label) = [] := by
      rw [List.filter_filter]
      apply List.filter_eq_nil.mpr
      intro e he
      by_cases h : e.1 = nb.label <;> simp [h]
    rw [h1]
    simp

/-- Witness for C3: a rejected relaxation, an accepted relaxation, and the
g-cost after one A* iteration on the `A-B(1)` graph. -/
theorem a_star_update_discipline_witness :
    (aStarRelax ([("B", 0)], [], [("B", (0 : WithTop ℚ))]) "A" 5 ⟨"B", 1⟩ ⊤ =
        ([("B", 0)], [], [("B", (0 : WithTop ℚ))])) ∧
      (alookup (aStarRelax ([("A", 0)], [("A", none)], []) "A" 0
          ⟨"B", 1⟩ ⊤).1 "B" = some 1) ∧
      ∃ v', alookup ((⟨[("B", ⊤)], ["A"], [("A", 0), ("B", 1)],
            [("A", none), ("B", some "A")]⟩ : AStarState)).g_costs "A" =
            some v' ∧ v' ≤ 0 :=
  ⟨a_star_update_discipline.2.1 ([("B", 0)], [], [("B", (0 : WithTop ℚ))])
      "A" 5 ⟨"B", 1⟩ ⊤ (by decide),
    (a_star_update_discipline.2.2.1 ([("A", 0)], [("A", none)], []) "A" 0
      ⟨"B", 1⟩ ⊤ (by decide)).1,
    a_star_update_discipline.2.2.2 abGraph (fun _ => ⊤) "A" "D" 1
      (aStarInit "A")
      (⟨[("B", ⊤)], ["A"], [("A", 0), ("B", 1)],
        [("A", none), ("B", some "A")]⟩ : AStarState) (by decide) "A" 0
      (by decide)⟩

/-! ## Parent chains and `reconstruct_path`: C7 -/

theorem chainList_length (parent : ParentMap) :
    ∀ (n : Nat) (c : String), (chainList parent c n).length = n + 1 := by
  intro n
  induction n with
  | zero => intro c; rfl
  | succ m ih =>
    intro c
    rw [chainList, List.length_cons, ih]

theorem chainList_head (parent : ParentMap) (n : Nat) (c : String) :
    (chainList parent c n).head? = some c := by
  cases n <;> rfl

theorem chainList_last (parent : ParentMap) (graph : Graph) (start : String) :
    ∀ (n : Nat) (c : String), chainOkB parent graph start c n = true →
      (chainList parent c n).getLast? = some start := by
  intro n
  induction n with
  | zero =>
    intro c h
    rw [chainOkB] at h
    have hc : c = start := by simpa using h
    subst hc
    rfl
  | succ m ih =>
    intro c h
    rw [chainOkB, Bool.and_eq_true] at h
    obtain ⟨-, h2⟩ := h
    cases hp : parentOf parent c with
    | none => rw [hp] at h2; cases h2
    | some p =>
      rw [hp] at h2
      rw [Bool.and_eq_true] at h2
      rw [chainList, hp]
      simp only [Option.getD_some]
      have hih := ih p h2.2
      cases hcl : chainList parent p m with
      | nil =>
        have := chainList_length parent m p
        rw [hcl] at this
        simp at this
      | cons x xs =>
        rw [hcl] at hih
        rw [List.getLast?_cons_cons]
        exact hih

theorem chainList_mem_depth (parent : ParentMap) (graph : Graph)
    (start : String) :
    ∀ (n : Nat) (c : String), chainOkB parent graph start c n = true →
      ∀ x ∈ chainList parent c n,
        ∃ k, k ≤ n ∧ chainOkB parent graph start x k = true := by
  intro n
  induction n with
  | zero =>
    intro c h x hx
    rw [chainList] at hx
    simp only [List.mem_singleton] at hx
    subst hx
    exact ⟨0, le_refl 0, h⟩
  | succ m ih =>
    intro c h x hx
    have h0 := h
    rw [chainOkB, Bool.and_eq_true] at h
    obtain ⟨-, h2⟩ := h
    cases hp : parentOf parent c with
    | none => rw [hp] at h2; cases h2
    | some p =>
      rw [hp] at h2
      rw [Bool.and_eq_true] at h2
      rw [chainList, hp] at hx
      simp only [Option.getD_some] at hx
      rcases List.mem_cons.mp hx with rfl | hx2
      · exact ⟨m + 1, le_refl _, h0⟩
      · obtain ⟨k, hk, hck⟩ := ih p h2.2 x hx2
        exact ⟨k, Nat.le_succ_of_le hk, hck⟩

theorem chainOkB_unique (parent : ParentMap) (graph : Graph) (start : String) :
    ∀ (n : Nat) (c : String), chainOkB parent graph start c n = true →
      ∀ (m : Nat), chainOkB parent graph start c m = true → n = m := by
  intro n
  induction n with
  | zero =>
    intro c h m hm
    rw [chainOkB] at h
    have hc : c = start := by simpa using h
    cases m with
    | zero => rfl
    | succ m2 =>
      rw [chainOkB, Bool.and_eq_true] at hm
      have := hm.1
      rw [hc] at this
      simp at this
  | succ n2 ih =>
    intro c h m hm
    cases m with
    | zero =>
      rw [chainOkB] at hm
      have hc : c = start := by simpa using hm
      rw [chainOkB, Bool.and_eq_true] at h
      have := h.1
      rw [hc] at this
      simp at this
    | succ m2 =>
      rw [chainOkB, Bool.and_eq_true] at h hm
      obtain ⟨-, h2⟩ := h
      obtain ⟨-, hm2⟩ := hm
      cases hp : parentOf parent c with
      | none => rw [hp] at h2; cases h2
      | some p =>
        rw [hp] at h2 hm2
        rw [Bool.and_eq_true] at h2 hm2
        have := ih p h2.2 m2 hm2.2
        omega

theorem chainList_nodup (parent : ParentMap) (graph : Graph) (start : String) :
    ∀ (n : Nat) (c : String), chainOkB parent graph start c n = true →
      (chainList parent c n).Nodup := by
  intro n
  induction n with
  | zero =>
    intro c h
    rw [chainList]
    exact List.nodup_singleton c
  | succ m ih =>
    intro c h
    have h0 := h
    rw [chainOkB, Bool.and_eq_true] at h
    obtain ⟨-, h2⟩ := h
    cases hp : parentOf parent c with
    | none => rw [hp] at h2; cases h2
    | some p =>
      rw [hp] at h2
      rw [Bool.and_eq_true] at h2
      rw [chainList, hp]
      simp only [Option.getD_some]
      refine List.nodup_cons.mpr ⟨?_, ih p h2.2⟩
      intro hcmem
      obtain ⟨k, hk, hck⟩ :=
        chainList_mem_depth parent graph start m p h2.2 c hcmem
      have := chainOkB_unique parent graph start (m + 1) c h0 k hck
      omega

theorem chainList_mem_key_or_start (parent : ParentMap) (graph : Graph)
    (start : String) (n : Nat) (c : String)
    (h : chainOkB parent graph start c n = true) :
    ∀ x ∈ chainList parent c n, x = start ∨ (alookup parent x).isSome := by
  intro x hx
  obtain ⟨k, -, hck⟩ := chainList_mem_depth parent graph start n c h x hx
  cases k with
  | zero =>
    left
    rw [chainOkB] at hck
    simpa using hck
  | succ k2 =>
    right
    rw [chainOkB, Bool.and_eq_true] at hck
    obtain ⟨-, h2⟩ := hck
    cases hp : parentOf parent x with
    | none => rw [hp] at h2; cases h2
    | some p =>
      unfold parentOf at hp
      cases hal : alookup parent x with
      | none => rw [hal] at hp; cases hp
      | some v => simp

theorem chainOkB_le (parent : ParentMap) (graph : Graph) (start : String)
    (n : Nat) (c : String) (h : chainOkB parent graph start c n = true) :
    n ≤ parent.length := by
  have hnd : (chainList parent c n).Nodup := chainList_nodup parent graph start n c h
  have h1 : (chainList parent c n).toFinset.card = n + 1 := by
    rw [List.toFinset_card_of_nodup hnd, chainList_length]
  have h2 : (chainList parent c n).toFinset ⊆
      insert start (parent.map Prod.fst).toFinset := by
    intro x hx
    rw [List.mem_toFinset] at hx
    rcases chainList_mem_key_or_start parent graph start n c h x hx with h3 | h3
    · exact Finset.mem_insert.mpr (Or.inl h3)
    · refine Finset.mem_insert.mpr (Or.inr (List.mem_toFinset.mpr ?_))
      exact (alookup_isSome_iff_mem parent x).mp h3
  have h3 := Finset.card_le_card h2
  have h4 := Finset.card_insert_le start (parent.map Prod.fst).toFinset
  have h5 := List.toFinset_card_le (parent.map Prod.fst)
  have h6 : (parent.map Prod.fst).length = parent.length := List.length_map _ _
  omega

theorem reconLoop_chain (parent : ParentMap) (graph : Graph) (start : String) :
    ∀ (n : Nat) (c : String) (fuel : Nat),
      chainOkB parent graph start c n = true → n < fuel →
      ∀ (acc : List String) (cost : Int),
        reconLoop parent graph start fuel (some c) acc cost =
          some ((acc ++ chainList parent c n).reverse,
            cost + chainCost parent graph c n) := by
  intro n
  induction n with
  | zero =>
    intro c fuel h hf acc cost
    have hc : c = start := by rw [chainOkB] at h; simpa using h
    subst hc
    cases fuel with
    | zero => omega
    | succ f =>
      rw [reconLoop, if_pos rfl, chainList, chainCost]
      simp
  | succ m ih =>
    intro c fuel h hf acc cost
    rw [chainOkB, Bool.and_eq_true] at h
    obtain ⟨hcs, h2⟩ := h
    have hcs2 : ¬ c = start := by simpa using hcs
    cases hp : parentOf parent c with
    | none => rw [hp] at h2; cases h2
    | some p =>
      rw [hp] at h2
      rw [Bool.and_eq_true] at h2
      obtain ⟨hcond, hrec⟩ := h2
      cases fuel with
      | zero => omega
      | succ f =>
        have hmf : m < f := by omega
        rw [reconLoop, if_neg hcs2]
        dsimp only
        have hj : (alookup parent c).join = some p := hp
        rw [hj]
        dsimp only
        rw [chainList, chainCost, hp]
        simp only [Option.getD_some]
        by_cases hpe : p = ""
        · rw [if_pos hpe, if_pos hpe]
          rw [ih p f hrec hmf (acc ++ [c]) cost]
          rw [List.append_assoc]
          simp
        · rw [if_neg hpe, if_neg hpe]
          rw [Bool.or_eq_true] at hcond
          have hsome : (alookup graph p).isSome := by
            rcases hcond with h3 | h3
            · exact absurd (by simpa using h3) hpe
            · exact h3
          obtain ⟨nbrs, hnbrs⟩ := Option.isSome_iff_exists.mp hsome
          rw [hnbrs]
          dsimp only
          rw [ih p f hrec hmf (acc ++ [c])
            (cost + ((nbrs.filter (fun nb => nb.label == c)).map
              (fun nb => nb.value)).sum)]
          rw [List.append_assoc]
          have hcost : edgeCostSum graph p c =
              ((nbrs.filter (fun nb => nb.label == c)).map
                (fun nb => nb.value)).sum := by
            unfold edgeCostSum
            rw [hnbrs]
            rfl
          rw [hcost]
          simp only [List.singleton_append]
          ring_nf

theorem chainCostOkB_chainOk (parent : ParentMap) (graph : Graph)
    (start : String) :
    ∀ (n : Nat) (c : String), chainCostOkB parent graph start c n = true →
      chainOkB parent graph start c n = true := by
  intro n
  induction n with
  | zero =>
    intro c h
    rw [chainCostOkB] at h
    rw [chainOkB]
    exact h
  | succ m ih =>
    intro c h
    rw [chainCostOkB, Bool.and_eq_true] at h
    obtain ⟨h1, h2⟩ := h
    rw [chainOkB, Bool.and_eq_true]
    refine ⟨h1, ?_⟩
    cases hp : parentOf parent c with
    | none => rw [hp] at h2; cases h2
    | some p =>
      rw [hp] at h2
      dsimp only at h2 ⊢
      rw [Bool.and_eq_true] at h2
      obtain ⟨h23, hrec⟩ := h2
      rw [Bool.and_eq_true] at h23
      rw [Bool.and_eq_true]
      refine ⟨?_, ih p hrec⟩
      rw [Bool.or_eq_true]
      exact Or.inr h23.2

theorem pathCost_append_single (g : Graph) :
    ∀ (xs : List String) (y z : String), xs.getLast? = some z →
      pathCost g (xs ++ [y]) = pathCost g xs + edgeCostSum g z y := by
  intro xs
  induction xs with
  | nil => intro y z h; cases h
  | cons x rest ih =>
    intro y z h
    cases rest with
    | nil =>
      have hz : z = x := by simpa using h.symm
      subst hz
      simp [pathCost]
    | cons x2 rest2 =>
      rw [List.getLast?_cons_cons] at h
      have e1 : (x :: x2 :: rest2) ++ [y] = x :: ((x2 :: rest2) ++ [y]) := rfl
      rw [e1]
      have e2 : pathCost g (x :: ((x2 :: rest2) ++ [y])) =
          edgeCostSum g x x2 + pathCost g ((x2 :: rest2) ++ [y]) := rfl
      rw [e2, ih y z h]
      have e3 : pathCost g (x :: x2 :: rest2) =
          edgeCostSum g x x2 + pathCost g (x2 :: rest2) := rfl
      rw [e3]
      ring

theorem chainCost_eq_pathCost (parent : ParentMap) (graph : Graph)
    (start : String) :
    ∀ (n : Nat) (c : String), chainCostOkB parent graph start c n = true →
      chainCost parent graph c n =
        pathCost graph (chainList parent c n).reverse := by
  intro n
  induction n with
  | zero =>
    intro c h
    rw [chainCost, chainList]
    rfl
  | succ m ih =>
    intro c h
    rw [chainCostOkB, Bool.and_eq_true] at h
    obtain ⟨-, h2⟩ := h
    cases hp : parentOf parent c with
    | none => rw [hp] at h2; cases h2
    | some p =>
      rw [hp] at h2
      rw [Bool.and_eq_true] at h2
      obtain ⟨h23, hrec⟩ := h2
      rw [Bool.and_eq_true] at h23
      obtain ⟨hne, -⟩ := h23
      rw [chainCost, chainList, hp]
      simp only [Option.getD_some]
      rw [List.reverse_cons]
      have hlast : (chainList parent p m).reverse.getLast? = some p := by
        rw [List.getLast?_reverse]
        exact chainList_head parent m p
      rw [pathCost_append_single graph _ c p hlast, ih p hrec]
      have hne2 : ¬ p = "" := by simpa using hne
      rw [if_neg hne2]
      ring

/-- C7 counterexample: the claim quantifies over *every* parent map whose
chain from goal reaches start, but when an intermediate parent value (here
`X`) is not a key of the graph, `reconstruct_path` evaluates `graph[X]` and
raises `KeyError` instead of returning a pair.  The chain `C → X → A` does
reach the start `A`. -/
theorem reconstruct_path_keyerror :
    parentOf [("C", some "X"), ("X", some "A")] "C" = some "X" ∧
      parentOf [("C", some "X"), ("X", some "A")] "X" = some "A" ∧
      reconstruct_path [("C", some "X"), ("X", some "A")] "A" "C"
        (load_graph [⟨"A", "C", 1, (0, 0), (1, 0)⟩]).graph = none :=
  ⟨by decide, by decide, by decide⟩

/-- C7 (amended): for every parent map in which following parent links from
`goal` reaches `start` and every parent value on the chain is a nonempty
label that is a key of the graph, `reconstruct_path` returns a path whose
first element is `start` and whose last element is `goal`, together with the
sum over each consecutive pair of path nodes of the weight of the connecting
edge looked up in the graph. -/
theorem reconstruct_path_correct (parent : ParentMap) (graph : Graph)
    (start goal : String) (n : Nat)
    (h : chainCostOkB parent graph start goal n = true) :
    ∃ p c, reconstruct_path parent start goal graph = some (p, c) ∧
      p.head? = some start ∧ p.getLast? = some goal ∧
      c = pathCost graph p := by
  have hok : chainOkB parent graph start goal n = true :=
    chainCostOkB_chainOk parent graph start n goal h
  have hle : n ≤ parent.length := chainOkB_le parent graph start n goal hok
  have hrun := reconLoop_chain parent graph start n goal
    (parent.length + 2) hok (by omega) [] 0
  refine ⟨(chainList parent goal n).reverse,
    chainCost parent graph goal n, ?_, ?_, ?_, ?_⟩
  · rw [reconstruct_path, hrun]
    simp
  · rw [List.head?_reverse]
    exact chainList_last parent graph start n goal hok
  · rw [List.getLast?_reverse]
    exact chainList_head parent n goal
  · exact chainCost_eq_pathCost parent graph start n goal h

/-- Witness for the amended C7 on the parent map BFS produces for the
`A-B(1)` graph. -/
theorem reconstruct_path_correct_witness :
    chainCostOkB [("A", none), ("B", some "A")] abGraph "A" "B" 1 = true ∧
      ∃ p c, reconstruct_path [("A", none), ("B", some "A")] "A" "B" abGraph =
          some (p, c) ∧ p.head? = some "A" ∧ p.getLast? = some "B" ∧
          c = pathCost abGraph p :=
  ⟨by decide,
    reconstruct_path_correct [("A", none), ("B", some "A")] abGraph "A" "B" 1
      (by decide)⟩

/-! ## BFS minimum-hop count (C8) -/

theorem adjB_isSome (g : Graph) (u v : String) (h : adjB g u v = true) :
    (alookup g u).isSome := by
  unfold adjB at h
  cases hu : alookup g u with
  | none => rw [hu] at h; simp at h
  | some ns => simp

theorem adjB_of_mem (g : Graph) (u : String) (ns : List SearchNode)
    (nb : SearchNode) (hu : alookup g u = some ns) (hnb : nb ∈ ns) :
    adjB g u nb.label = true := by
  unfold adjB
  rw [hu]
  simp only [Option.getD_some, List.any_eq_true]
  exact ⟨nb, hnb, by simp⟩

theorem mem_labels_of_adjB (g : Graph) (u v : String) (ns : List SearchNode)
    (hu : alookup g u = some ns) (h : adjB g u v = true) :
    v ∈ ns.map SearchNode.label := by
  unfold adjB at h
  rw [hu] at h
  simp only [Option.getD_some, List.any_eq_true] at h
  obtain ⟨nb, hnb, hlbl⟩ := h
  have : nb.label = v := by simpa using hlbl
  exact this ▸ List.mem_map_of_mem SearchNode.label hnb

theorem chainOkB_of_chainAdjB (parent : ParentMap) (g : Graph)
    (start : String) :
    ∀ (n : Nat) (c : String), chainAdjB parent g start c n = true →
      chainOkB parent g start c n = true := by
  intro n
  induction n with
  | zero => intro c h; exact h
  | succ m ih =>
    intro c h
    rw [chainAdjB, Bool.and_eq_true] at h
    obtain ⟨h1, h2⟩ := h
    rw [chainOkB, Bool.and_eq_true]
    refine ⟨h1, ?_⟩
    cases hp : parentOf parent c with
    | none => rw [hp] at h2; cases h2
    | some p =>
      rw [hp] at h2
      rw [Bool.and_eq_true] at h2
      obtain ⟨hadj, hrec⟩ := h2
      rw [Bool.and_eq_true]
      refine ⟨?_, ih p hrec⟩
      rw [Bool.or_eq_true]
      exact Or.inr (adjB_isSome g p c hadj)

theorem chainAdjB_extend (parent parent' : ParentMap) (g : Graph)
    (start : String)
    (hpres : ∀ x, (alookup parent x).isSome →
      alookup parent' x = alookup parent x) :
    ∀ (n : Nat) (c : String), chainAdjB parent g start c n = true →
      chainAdjB parent' g start c n = true := by
  intro n
  induction n with
  | zero => intro c h; exact h
  | succ m ih =>
    intro c h
    rw [chainAdjB, Bool.and_eq_true] at h
    obtain ⟨h1, h2⟩ := h
    rw [chainAdjB, Bool.and_eq_true]
    refine ⟨h1, ?_⟩
    cases hp : parentOf parent c with
    | none => rw [hp] at h2; cases h2
    | some p =>
      rw [hp] at h2
      rw [Bool.and_eq_true] at h2
      obtain ⟨hadj, hrec⟩ := h2
      have hcs : alookup parent c = some (some p) := by
        unfold parentOf at hp
        cases hc : alookup parent c with
        | none => rw [hc] at hp; simp [Option.join] at hp
        | some o =>
          rw [hc] at hp
          cases o with
          | none => simp [Option.join] at hp
          | some p2 =>
            have hpp : p2 = p := by simpa [Option.join] using hp
            rw [hpp]
      have hp' : parentOf parent' c = some p := by
        unfold parentOf
        rw [hpres c (by rw [hcs]; rfl), hcs]
        rfl
      rw [hp']
      rw [Bool.and_eq_true]
      exact ⟨hadj, ih p hrec⟩

theorem bfsAssign_pres (cur : String) :
    ∀ (ch : List SearchNode) (parent : ParentMap)
      (tr : List (String × String)) (x : String),
      (alookup parent x).isSome →
      alookup (bfsAssign cur parent tr ch).1 x = alookup parent x := by
  intro ch
  induction ch with
  | nil => intro parent tr x _; rfl
  | cons c rest ih =>
    intro parent tr x hx
    rw [bfsAssign]
    by_cases hc : (alookup parent c.label).isSome
    · rw [if_pos hc]
      exact ih parent tr x hx
    · rw [if_neg hc]
      have hne : x ≠ c.label := by
        intro he
        rw [he] at hx
        exact hc hx
      have hset : alookup (aset parent c.label (some cur)) x =
          alookup parent x := alookup_aset_ne parent c.label (some cur) x hne
      rw [ih (aset parent c.label (some cur)) _ x (by rw [hset]; exact hx), hset]

theorem bfsAssign_fresh (cur : String) :
    ∀ (ch : List SearchNode) (parent : ParentMap)
      (tr : List (String × String)) (x : String),
      alookup parent x = none → x ∈ ch.map SearchNode.label →
      alookup (bfsAssign cur parent tr ch).1 x = some (some cur) := by
  intro ch
  induction ch with
  | nil => intro parent tr x _ hm; simp at hm
  | cons c rest ih =>
    intro parent tr x hx hm
    have hm2 : x = c.label ∨ ∃ d ∈ rest, d.label = x := by simpa using hm
    rw [bfsAssign]
    by_cases hc : (alookup parent c.label).isSome
    · rw [if_pos hc]
      have hne : x ≠ c.label := by
        intro he
        rw [he] at hx
        rw [hx] at hc
        simp at hc
      rcases hm2 with he | ⟨d, hd, hdl⟩
      · exact absurd he hne
      · exact ih parent tr x hx (List.mem_map.mpr ⟨d, hd, hdl⟩)
    · rw [if_neg hc]
      by_cases he : x = c.label
      · have hset : alookup (aset parent c.label (some cur)) x =
            some (some cur) := by
          rw [he]
          exact alookup_aset_self parent c.label (some cur)
        rw [bfsAssign_pres cur rest _ _ x (by rw [hset]; rfl), hset]
      · have hset : alookup (aset parent c.label (some cur)) x =
            alookup parent x := alookup_aset_ne parent c.label (some cur) x he
        rcases hm2 with he2 | ⟨d, hd, hdl⟩
        · exact absurd he2 he
        · exact ih (aset parent c.label (some cur)) _ x (by rw [hset]; exact hx)
            (List.mem_map.mpr ⟨d, hd, hdl⟩)

theorem isWalkB_append_edge (g : Graph) :
    ∀ (xs : List String) (a b : String), isWalkB g xs = true →
      xs.getLast? = some a → adjB g a b = true →
      isWalkB g (xs ++ [b]) = true := by
  intro xs
  induction xs with
  | nil => intro a b _ hl _; cases hl
  | cons x rest ih =>
    intro a b hw hl hadj
    cases rest with
    | nil =>
      have hax : x = a := by simpa using hl
      rw [← hax] at hadj
      simp only [List.cons_append, List.nil_append]
      rw [isWalkB, Bool.and_eq_true]
      exact ⟨hadj, rfl⟩
    | cons y ys =>
      rw [isWalkB, Bool.and_eq_true] at hw
      obtain ⟨hxy, hw2⟩ := hw
      have hl2 : (y :: ys).getLast? = some a := by
        rw [List.getLast?_cons_cons] at hl
        exact hl
      have := ih a b hw2 hl2 hadj
      simp only [List.cons_append] at this ⊢
      rw [isWalkB, Bool.and_eq_true]
      exact ⟨hxy, this⟩

theorem chainAdjB_walk (parent : ParentMap) (g : Graph) (start : String) :
    ∀ (n : Nat) (c : String), chainAdjB parent g start c n = true →
      isWalkB g ((chainList parent c n).reverse) = true := by
  intro n
  induction n with
  | zero => intro c _; rfl
  | succ m ih =>
    intro c h
    rw [chainAdjB, Bool.and_eq_true] at h
    obtain ⟨-, h2⟩ := h
    cases hp : parentOf parent c with
    | none => rw [hp] at h2; cases h2
    | some p =>
      rw [hp] at h2
      rw [Bool.and_eq_true] at h2
      obtain ⟨hadj, hrec⟩ := h2
      rw [chainList, hp]
      simp only [Option.getD_some, List.reverse_cons]
      refine isWalkB_append_edge g _ p c (ih p hrec) ?_ hadj
      rw [List.getLast?_reverse]
      exact chainList_head parent m p

theorem bfs_guard_minInv (g : Graph) (start goal : String) (D : String → Nat)
    (s : BfsState) (hI : MinInvD g start goal D s) (current : SearchNode)
    (rest : List SearchNode) (hq : s.queue = current :: rest)
    (hv : current.label ∈ s.visited) :
    MinInvD g start goal D
      { s with queue := rest, guardHits := s.guardHits + 1 } := by
  have hqm : ∀ l ∈ rest.map SearchNode.label,
      l ∈ s.queue.map SearchNode.label := by
    intro l hl
    rw [hq]
    simp only [List.map_cons, List.mem_cons]
    exact Or.inr hl
  refine ⟨?_, hI.vKeys, ?_, hI.startKey, hI.startD, hI.chain, hI.closure,
    ?_, ?_, ?_, hI.goalNotV⟩
  · intro l hl
    exact hI.qKeys l (hqm l hl)
  · intro x hx
    rcases hI.part x hx with h1 | h1
    · exact Or.inl h1
    · rw [hq] at h1
      simp only [List.map_cons, List.mem_cons] at h1
      rcases h1 with h1 | h1
      · exact Or.inl (by rw [h1]; exact hv)
      · exact Or.inr h1
  · intro v hv2 q hq2
    exact hI.vLeQ v hv2 q (hqm q hq2)
  · have hm := hI.mono
    rw [hq] at hm
    simp only [List.map_cons] at hm
    exact (List.pairwise_cons.mp hm).2
  · intro a ha b hb
    exact hI.window a (hqm a ha) b (hqm b hb)

theorem bfs_expand_minInv (g : Graph) (start goal : String) (D : String → Nat)
    (s : BfsState) (hI : MinInvD g start goal D s) (current : SearchNode)
    (rest : List SearchNode) (nbrs : List SearchNode)
    (hq : s.queue = current :: rest)
    (hnv : current.label ∉ s.visited)
    (hngoal : ¬ current.label = goal)
    (hlk : alookup g current.label = some nbrs) :
    MinInvD g start goal
      (fun l => if (alookup s.parent l).isSome then D l
        else D current.label + 1)
      { queue := rest ++ sortNodes (nbrs.filter (fun nb =>
            !((s.visited ++ [current.label]).contains nb.label) &&
              (alookup s.parent nb.label).isNone)),
        visited := s.visited ++ [current.label],
        parent := (bfsAssign current.label s.parent s.assignTrace
          (nbrs.filter (fun nb =>
            !((s.visited ++ [current.label]).contains nb.label) &&
              (alookup s.parent nb.label).isNone))).1,
        pushTrace := s.pushTrace ++ (sortNodes (nbrs.filter (fun nb =>
            !((s.visited ++ [current.label]).contains nb.label) &&
              (alookup s.parent nb.label).isNone))).map (fun c => c.label),
        assignTrace := (bfsAssign current.label s.parent s.assignTrace
          (nbrs.filter (fun nb =>
            !((s.visited ++ [current.label]).contains nb.label) &&
              (alookup s.parent nb.label).isNone))).2,
        guardHits := s.guardHits } := by
  set children := nbrs.filter (fun nb =>
    !((s.visited ++ [current.label]).contains nb.label) &&
      (alookup s.parent nb.label).isNone) with hch
  set parent' := (bfsAssign current.label s.parent s.assignTrace children).1
    with hpar
  set D' := (fun l => if (alookup s.parent l).isSome then D l
    else D current.label + 1) with hD
  have hcurQ : current.label ∈ s.queue.map SearchNode.label := by
    rw [hq]; simp
  have hcurKey : (alookup s.parent current.label).isSome := hI.qKeys _ hcurQ
  have hchProp : ∀ c ∈ children, (c.label ∉ s.visited ∧
      c.label ≠ current.label) ∧ alookup s.parent c.label = none := by
    intro c hc
    rw [hch, List.mem_filter] at hc
    obtain ⟨-, hc2⟩ := hc
    rw [Bool.and_eq_true] at hc2
    obtain ⟨h1, h2⟩ := hc2
    rw [Bool.not_eq_true'] at h1
    simp at h1
    exact ⟨⟨h1.1, h1.2⟩, Option.isNone_iff_eq_none.mp h2⟩
  have hmemCh : ∀ c ∈ children, c ∈ nbrs := by
    intro c hc
    rw [hch] at hc
    exact List.mem_of_mem_filter hc
  have hperm : List.Perm ((sortNodes children).map SearchNode.label)
      (children.map SearchNode.label) := (sortNodes_perm children).map _
  have hpres : ∀ x, (alookup s.parent x).isSome →
      alookup parent' x = alookup s.parent x := by
    intro x hx
    rw [hpar]
    exact bfsAssign_pres current.label children s.parent s.assignTrace x hx
  have hkeys : ∀ x, (alookup parent' x).isSome ↔
      ((alookup s.parent x).isSome ∨ x ∈ children.map SearchNode.label) := by
    intro x
    rw [hpar]
    exact bfsAssign_isSome current.label children s.parent s.assignTrace x
  have hfreshVal : ∀ x ∈ children.map SearchNode.label,
      alookup parent' x = some (some current.label) := by
    intro x hx
    rcases List.mem_map.mp hx with ⟨c, hc, rfl⟩
    rw [hpar]
    exact bfsAssign_fresh current.label children s.parent s.assignTrace c.label
      (hchProp c hc).2 hx
  have hDold : ∀ x, (alookup s.parent x).isSome → D' x = D x := by
    intro x hx
    rw [hD]
    simp [hx]
  have hDnew : ∀ x ∈ children.map SearchNode.label,
      D' x = D current.label + 1 := by
    intro x hx
    rcases List.mem_map.mp hx with ⟨c, hc, rfl⟩
    have hn := (hchProp c hc).2
    rw [hD]
    simp [hn]
  have hrestKey : ∀ l ∈ rest.map SearchNode.label,
      (alookup s.parent l).isSome := by
    intro l hl
    apply hI.qKeys
    rw [hq]
    simp only [List.map_cons, List.mem_cons]
    exact Or.inr hl
  have hrestOldQ : ∀ l ∈ rest.map SearchNode.label,
      l ∈ s.queue.map SearchNode.label := by
    intro l hl
    rw [hq]
    simp only [List.map_cons, List.mem_cons]
    exact Or.inr hl
  have hmonoOld := hI.mono
  rw [hq] at hmonoOld
  simp only [List.map_cons] at hmonoOld
  have hmono2 := List.pairwise_cons.mp hmonoOld
  refine ⟨?_, ?_, ?_, ?_, ?_, ?_, ?_, ?_, ?_, ?_, ?_⟩
  · intro l hl
    rw [List.map_append, List.mem_append] at hl
    rw [hkeys l]
    rcases hl with hl | hl
    · exact Or.inl (hrestKey l hl)
    · exact Or.inr (hperm.mem_iff.mp hl)
  · intro v hv
    rcases List.mem_append.mp hv with h1 | h1
    · rw [hpres v (hI.vKeys v h1)]
      exact hI.vKeys v h1
    · simp only [List.mem_singleton] at h1
      subst h1
      rw [hpres _ hcurKey]
      exact hcurKey
  · intro x hx
    rw [hkeys x] at hx
    rcases hx with hx | hx
    · rcases hI.part x hx with h1 | h1
      · exact Or.inl (List.mem_append.mpr (Or.inl h1))
      · rw [hq] at h1
        simp only [List.map_cons, List.mem_cons] at h1
        rcases h1 with h1 | h1
        · exact Or.inl (List.mem_append.mpr (Or.inr (by simp [h1])))
        · refine Or.inr ?_
          rw [List.map_append, List.mem_append]
          exact Or.inl h1
    · refine Or.inr ?_
      rw [List.map_append, List.mem_append]
      exact Or.inr (hperm.mem_iff.mpr hx)
  · rw [hpres start hI.startKey]
    exact hI.startKey
  · exact (hDold start hI.startKey).trans hI.startD
  · intro x hx
    rw [hkeys x] at hx
    rcases hx with hx | hx
    · rw [hDold x hx]
      exact chainAdjB_extend s.parent parent' g start hpres (D x) x
        (hI.chain x hx)
    · have hxfresh : alookup s.parent x = none := by
        rcases List.mem_map.mp hx with ⟨c, hc, hcl⟩
        rw [← hcl]
        exact (hchProp c hc).2
      rw [hDnew x hx, chainAdjB, Bool.and_eq_true]
      constructor
      · have hxs : x ≠ start := by
          intro he
          have hsk := hI.startKey
          rw [← he, hxfresh] at hsk
          simp at hsk
        simp [hxs]
      · have hpx : parentOf parent' x = some current.label := by
          unfold parentOf
          rw [hfreshVal x hx]
          rfl
        rw [hpx, Bool.and_eq_true]
        constructor
        · rcases List.mem_map.mp hx with ⟨c, hc, hcl⟩
          rw [← hcl]
          exact adjB_of_mem g current.label nbrs c hlk (hmemCh c hc)
        · exact chainAdjB_extend s.parent parent' g start hpres
            (D current.label) current.label (hI.chain current.label hcurKey)
  · intro v hv w hw
    rcases List.mem_append.mp hv with h1 | h1
    · obtain ⟨hk, hd⟩ := hI.closure v h1 w hw
      refine ⟨?_, ?_⟩
      · rw [hkeys w]
        exact Or.inl hk
      · rw [hDold w hk, hDold v (hI.vKeys v h1)]
        exact hd
    · simp only [List.mem_singleton] at h1
      subst h1
      by_cases hws : (alookup s.parent w).isSome
      · refine ⟨?_, ?_⟩
        · rw [hkeys w]
          exact Or.inl hws
        · rw [hDold w hws, hDold _ hcurKey]
          rcases hI.part w hws with h2 | h2
          · exact le_trans (hI.vLeQ w h2 current.label hcurQ) (Nat.le_succ _)
          · exact hI.window w h2 current.label hcurQ
      · have hwn : alookup s.parent w = none :=
          Option.not_isSome_iff_eq_none.mp hws
        have hwnv : w ∉ s.visited := by
          intro hmem
          exact hws (hI.vKeys w hmem)
        have hwc : w ≠ current.label := by
          intro he
          rw [he] at hwn
          rw [hwn] at hcurKey
          simp at hcurKey
        have hwnbrs : w ∈ nbrs.map SearchNode.label :=
          mem_labels_of_adjB g current.label w nbrs hlk hw
        rcases List.mem_map.mp hwnbrs with ⟨nb, hnb, hnbl⟩
        have hnotmem : nb.label ∉ s.visited ++ [current.label] := by
          rw [hnbl]
          intro hmem
          rcases List.mem_append.mp hmem with hm | hm
          · exact hwnv hm
          · exact hwc (by simpa using hm)
        have hnbch : nb ∈ children := by
          rw [hch]
          refine List.mem_filter.mpr ⟨hnb, ?_⟩
          rw [Bool.and_eq_true]
          constructor
          · simp [hnotmem]
          · rw [hnbl]
            simp [hwn]
        have hwch : w ∈ children.map SearchNode.label := by
          rw [← hnbl]
          exact List.mem_map_of_mem SearchNode.label hnbch
        refine ⟨?_, ?_⟩
        · rw [hkeys w]
          exact Or.inr hwch
        · rw [hDnew w hwch, hDold _ hcurKey]
  · intro v hv q hq2
    rw [List.map_append, List.mem_append] at hq2
    rcases List.mem_append.mp hv with h1 | h1
    · have hvk := hI.vKeys v h1
      rw [hDold v hvk]
      rcases hq2 with h2 | h2
      · rw [hDold q (hrestKey q h2)]
        exact hI.vLeQ v h1 q (hrestOldQ q h2)
      · rw [hDnew q (hperm.mem_iff.mp h2)]
        exact le_trans (hI.vLeQ v h1 current.label hcurQ) (Nat.le_succ _)
    · simp only [List.mem_singleton] at h1
      subst h1
      rw [hDold _ hcurKey]
      rcases hq2 with h2 | h2
      · rw [hDold q (hrestKey q h2)]
        exact hmono2.1 q h2
      · rw [hDnew q (hperm.mem_iff.mp h2)]
        exact Nat.le_succ _
  · rw [List.map_append, List.pairwise_append]
    refine ⟨?_, ?_, ?_⟩
    · refine List.Pairwise.imp_of_mem ?_ hmono2.2
      intro a b ha hb hab
      rw [hDold a (hrestKey a ha), hDold b (hrestKey b hb)]
      exact hab
    · refine List.pairwise_of_forall_mem_list ?_
      intro a ha b hb
      rw [hDnew a (hperm.mem_iff.mp ha), hDnew b (hperm.mem_iff.mp hb)]
    · intro a ha b hb
      rw [hDold a (hrestKey a ha), hDnew b (hperm.mem_iff.mp hb)]
      exact hI.window a (hrestOldQ a ha) current.label hcurQ
  · intro a ha b hb
    rw [List.map_append, List.mem_append] at ha hb
    rcases ha with ha | ha <;> rcases hb with hb | hb
    · rw [hDold a (hrestKey a ha), hDold b (hrestKey b hb)]
      exact hI.window a (hrestOldQ a ha) b (hrestOldQ b hb)
    · rw [hDold a (hrestKey a ha), hDnew b (hperm.mem_iff.mp hb)]
      exact le_trans (hI.window a (hrestOldQ a ha) current.label hcurQ)
        (Nat.le_succ _)
    · rw [hDnew a (hperm.mem_iff.mp ha), hDold b (hrestKey b hb)]
      exact Nat.succ_le_succ (hmono2.1 b hb)
    · rw [hDnew a (hperm.mem_iff.mp ha), hDnew b (hperm.mem_iff.mp hb)]
      exact Nat.le_succ _
  · intro hmem
    rcases List.mem_append.mp hmem with h1 | h1
    · exact hI.goalNotV h1
    · exact hngoal ((by simpa using h1 : goal = current.label).symm)

theorem bfsStep_cont_minInv (g : Graph) (start goal : String)
    (s s' : BfsState) (hI : MinInv g start goal s)
    (hstep : bfsStep g start goal s = .cont s') :
    MinInv g start goal s' := by
  obtain ⟨D, hID⟩ := hI
  rw [bfsStep] at hstep
  split at hstep
  · cases hstep
  next current rest hq =>
    split at hstep
    next hv =>
      cases hstep
      exact ⟨D, bfs_guard_minInv g start goal D s hID current rest hq hv⟩
    next hv =>
      split at hstep
      · split at hstep <;> cases hstep
      next hngoal =>
        split at hstep
        · cases hstep
        next nbrs hlk =>
          cases hstep
          exact ⟨_, bfs_expand_minInv g start goal D s hID current rest nbrs
            hq hv hngoal hlk⟩

theorem searchInit_minInv (g : Graph) (start goal : String) :
    MinInv g start goal (searchInit start) := by
  refine ⟨fun _ => 0, ?_, ?_, ?_, ?_, rfl, ?_, ?_, ?_, ?_, ?_, ?_⟩
  · intro l hl
    simp only [searchInit, List.map_cons, List.map_nil,
      List.mem_singleton] at hl
    subst hl
    simp [searchInit, alookup_cons]
  · intro v hv
    simp [searchInit] at hv
  · intro x hx
    refine Or.inr ?_
    simp only [searchInit] at hx ⊢
    rw [alookup_cons] at hx
    by_cases h : start = x
    · subst h
      simp
    · rw [if_neg h, alookup_nil] at hx
      simp at hx
  · simp [searchInit, alookup_cons]
  · intro x hx
    simp only [searchInit] at hx
    rw [alookup_cons] at hx
    by_cases h : start = x
    · subst h
      simp [chainAdjB]
    · rw [if_neg h, alookup_nil] at hx
      simp at hx
  · intro v hv
    simp [searchInit] at hv
  · intro v hv
    simp [searchInit] at hv
  · simp [searchInit]
  · intro a ha b hb
    simp
  · simp [searchInit]

theorem bfs_walk_cut (g : Graph) (start goal : String) (D : String → Nat)
    (s : BfsState) (hI : MinInvD g start goal D s) :
    ∀ (xs : List String) (x : String) (k : Nat),
      isWalkB g (x :: xs) = true → (alookup s.parent x).isSome → D x ≤ k →
      (∃ t, (x :: xs).getLast? = some t ∧ t ∈ s.visited ∧
          D t ≤ k + xs.length) ∨
        (∃ l ∈ s.queue.map SearchNode.label, D l ≤ k + xs.length) := by
  intro xs
  induction xs with
  | nil =>
    intro x k _ hkey hD
    rcases hI.part x hkey with h1 | h1
    · exact Or.inl ⟨x, rfl, h1, by simpa using hD⟩
    · exact Or.inr ⟨x, h1, by simpa using hD⟩
  | cons y ys ih =>
    intro x k hw hkey hD
    rcases hI.part x hkey with h1 | h1
    · rw [isWalkB, Bool.and_eq_true] at hw
      obtain ⟨hxy, hw2⟩ := hw
      obtain ⟨hykey, hyD⟩ := hI.closure x h1 y hxy
      have hyD2 : D y ≤ k + 1 := le_trans hyD (Nat.succ_le_succ hD)
      rcases ih y (k + 1) hw2 hykey hyD2 with ⟨t, hlast, htv, htD⟩ |
        ⟨l, hl, hlD⟩
      · refine Or.inl ⟨t, ?_, htv, ?_⟩
        · rw [List.getLast?_cons_cons]
          exact hlast
        · simp only [List.length_cons]
          omega
      · refine Or.inr ⟨l, hl, ?_⟩
        simp only [List.length_cons]
        omega
    · refine Or.inr ⟨x, h1, le_trans hD (Nat.le_add_right k _)⟩

theorem bfsStep_ret_minhop (g : Graph) (start goal : String) (s : BfsState)
    (r : List String × Int) (s' : BfsState)
    (hreach : ∃ q, isPathFromTo g start goal q)
    (hI : MinInv g start goal s)
    (hstep : bfsStep g start goal s = .ret r s') :
    isPathFromTo g start goal r.1 ∧
      ∀ q, isPathFromTo g start goal q → r.1.length ≤ q.length := by
  obtain ⟨D, hID⟩ := hI
  rw [bfsStep] at hstep
  split at hstep
  next hq =>
    exfalso
    obtain ⟨q, hwq, hhq, hlq⟩ := hreach
    cases q with
    | nil => cases hhq
    | cons x xs =>
      have hx : start = x := (show x = start by simpa using hhq).symm
      subst hx
      rcases bfs_walk_cut g start goal D s hID xs start 0 hwq hID.startKey
          (le_of_eq hID.startD) with ⟨t, hlast, htv, -⟩ | ⟨l, hl, -⟩
      · have ht : t = goal := Option.some.inj (hlast.symm.trans hlq)
        exact hID.goalNotV (ht ▸ htv)
      · rw [hq] at hl
        simp at hl
  next current rest hq =>
    split at hstep
    next hv => cases hstep
    next hv =>
      split at hstep
      next hgl =>
        split at hstep
        · cases hstep
        next r0 hrec =>
          cases hstep
          have hgoalQ : goal ∈ s.queue.map SearchNode.label := by
            rw [hq]
            simp only [List.map_cons, List.mem_cons]
            exact Or.inl hgl.symm
          have hgkey : (alookup s.parent goal).isSome := hID.qKeys _ hgoalQ
          have hchA := hID.chain goal hgkey
          have hchOk := chainOkB_of_chainAdjB s.parent g start (D goal) goal
            hchA
          have hle := chainOkB_le s.parent g start (D goal) goal hchOk
          have hcomp := reconLoop_chain s.parent g start (D goal) goal
            (s.parent.length + 2) hchOk (by omega) [] 0
          have hrec2 : reconstruct_path s.parent start goal g =
              some ((chainList s.parent goal (D goal)).reverse,
                0 + chainCost s.parent g goal (D goal)) := by
            rw [reconstruct_path]
            simpa using hcomp
          have hr0 : r = ((chainList s.parent goal (D goal)).reverse,
              0 + chainCost s.parent g goal (D goal)) :=
            Option.some.inj (hrec.symm.trans hrec2)
          constructor
          · refine ⟨?_, ?_, ?_⟩
            · rw [hr0]
              exact chainAdjB_walk s.parent g start (D goal) goal hchA
            · rw [hr0]
              simp only [List.head?_reverse]
              exact chainList_last s.parent g start (D goal) goal hchOk
            · rw [hr0]
              simp only [List.getLast?_reverse]
              exact chainList_head s.parent (D goal) goal
          · intro q hqpath
            obtain ⟨hwq, hhq, hlq⟩ := hqpath
            cases q with
            | nil => cases hhq
            | cons x xs =>
              have hx : start = x := (show x = start by simpa using hhq).symm
              subst hx
              rcases bfs_walk_cut g start goal D s hID xs start 0 hwq
                  hID.startKey (le_of_eq hID.startD) with
                ⟨t, hlast, htv, -⟩ | ⟨l, hl, hlD⟩
              · have ht : t = goal := Option.some.inj (hlast.symm.trans hlq)
                exact absurd (ht ▸ htv) hID.goalNotV
              · have hm := hID.mono
                rw [hq] at hm hl
                simp only [List.map_cons] at hm
                simp only [List.map_cons, List.mem_cons] at hl
                have hDgl : D goal ≤ D l := by
                  rcases hl with hl | hl
                  · rw [hl, hgl]
                  · have := (List.pairwise_cons.mp hm).1 l hl
                    rw [hgl] at this
                    exact this
                have hlen : D goal ≤ xs.length :=
                  le_trans hDgl (by simpa using hlD)
                rw [hr0]
                simp only [List.length_reverse, chainList_length,
                  List.length_cons]
                omega
      next hgl =>
        split at hstep <;> cases hstep

/-- C8: on every graph all of whose edge weights equal `w` and in which
`goal` is reachable from `start` (some start-to-goal path exists), a pair
returned by `bfs` carries a path that is itself a start-to-goal path of the
graph and has the minimum possible number of edges (hops) among all
start-to-goal paths: its node count — hop count plus one — is at most that
of any such path. -/
theorem bfs_minimum_hops (graph : Graph) (w : Int) (start goal : String)
    (fuel : Nat) (p : List String) (c : Int)
    (hw : allWeightsEqual graph w)
    (hreach : ∃ q, isPathFromTo graph start goal q)
    (hrun : bfs graph start goal fuel = some (p, c)) :
    isPathFromTo graph start goal p ∧
      ∀ q, isPathFromTo graph start goal q → p.length ≤ q.length := by
  have hrun2 : (runLoop (bfsStep graph start goal) fuel
      (searchInit start)).1 = some (p, c) := hrun
  exact runLoop_ret_elim (bfsStep graph start goal)
    (MinInv graph start goal)
    (fun r => isPathFromTo graph start goal r.1 ∧
      ∀ q, isPathFromTo graph start goal q → r.1.length ≤ q.length)
    (fun s s' hP h => bfsStep_cont_minInv graph start goal s s' hP h)
    (fun s r s' hP h => bfsStep_ret_minhop graph start goal s r s' hreach hP h)
    fuel (searchInit start) (p, c) (searchInit_minInv graph start goal) hrun2

/-- Witness for C8 on the single-edge graph `A-B(1)`: all weights equal 1,
`B` is reachable from `A`, BFS returns `(["A", "B"], 1)`, and the returned
path is a minimum-hop start-to-goal path. -/
theorem bfs_minimum_hops_witness :
    allWeightsEqual abGraph 1 ∧
      bfs abGraph "A" "B" 10 = some (["A", "B"], 1) ∧
      (isPathFromTo abGraph "A" "B" ["A", "B"] ∧
        ∀ q, isPathFromTo abGraph "A" "B" q →
          (["A", "B"] : List String).length ≤ q.length) :=
  ⟨by unfold allWeightsEqual; decide, by decide,
    bfs_minimum_hops abGraph 1 "A" "B" 10 ["A", "B"] 1
      (by unfold allWeightsEqual; decide)
      ⟨["A", "B"], by unfold isPathFromTo; decide⟩
      (by decide)⟩

end SPV
